import Mathlib

set_option maxHeartbeats 1600000
set_option maxRecDepth 8000

/-!
A shallow embedding of the generational arena in
`src/components/support/ffi/src/handle_map.rs`: the `HandleMap` collection,
its `Handle` codec (`into_u64` / `from_u64` / `is_valid`), and the
`insert` / `get` / `get_mut` / `delete` operations.

Modelling conventions:
- Rust panics (`assert!`, `panic!`, out-of-bounds indexing, `.expect`) are
  modelled by `Option.none`; operations that can panic return `Option`.
- `u16` arithmetic is modelled on `Nat` with an explicit `% 65536` at the
  points where the release build would wrap (`version += 1`).
- `&mut self` receivers are modelled by threading the map through the
  result (`delete`, `get_mut` return the updated map).
- the process-global `next_handle_map_id()` counter is modelled by passing
  the generated id to the constructor; the `as u16` cast is kept.
-/

deriving instance DecidableEq for Except

/-- Validation error type `HandleError` from the source. -/
inductive HandleError : Type where
  | InvalidHandle : HandleError
  | StaleVersion : HandleError
  | IndexPastEnd : HandleError
  | WrongMap : HandleError
deriving DecidableEq

/-- Slot state `EntryState<T>` from the source: `Active(T)`,
`InFreeList(u16)` (next index in the free list), `EndOfFreeList`. -/
inductive EntryState (T : Type) : Type where
  | Active : T → EntryState T
  | InFreeList : Nat → EntryState T
  | EndOfFreeList : EntryState T
deriving DecidableEq

namespace EntryState

/-- Source `EntryState::is_end_of_list`. -/
def is_end_of_list {T : Type} : EntryState T → Bool
  | .EndOfFreeList => true
  | _ => false

/-- Source `EntryState::get_item`. -/
def get_item {T : Type} : EntryState T → Option T
  | .Active v => some v
  | _ => none

/-- Source `EntryState::get_item_mut` (in a value model it returns the
item, like `get_item`). -/
def get_item_mut {T : Type} : EntryState T → Option T
  | .Active v => some v
  | _ => none

/-- Source `EntryState::is_occupied`. -/
def is_occupied {T : Type} (s : EntryState T) : Bool := s.get_item.isSome

end EntryState

/-- Slot type `Entry<T>`: a `u16` version plus the state. -/
structure Entry (T : Type) : Type where
  version : Nat
  state : EntryState T
deriving DecidableEq

instance (T : Type) : Inhabited (Entry T) := ⟨⟨0, .EndOfFreeList⟩⟩

/-- Source helper `to_u16`: asserts the value fits in `u16` and casts.
Every call site in the source passes an index `≤ 32766` (capacity is capped
at `MAX_CAPACITY = 32767`), so the assert never fires and the cast is the
identity; we model the cast's numeric value. -/
def to_u16 (v : Nat) : Nat := v % 65536

/-- Source `MAX_CAPACITY = (1 << 15) - 1 = 32767`. -/
def MAX_CAPACITY : Nat := (1 <<< 15) - 1

/-- Source `MIN_CAPACITY = 4`. -/
def MIN_CAPACITY : Nat := 4

/-- The handle type: `{ map_id: u16, version: u16, index: u16 }`. -/
structure Handle : Type where
  map_id : Nat
  version : Nat
  index : Nat
deriving DecidableEq

/-- The arena type `HandleMap<T>`: instance id, head of the free list,
occupied count, and the slot sequence (`entries.len()` is the capacity). -/
structure HandleMap (T : Type) : Type where
  id : Nat
  first_free : Nat
  num_entries : Nat
  entries : List (Entry T)
deriving DecidableEq

namespace HandleMap

/-- Source `HandleMap::len`: the number of occupied entries. -/
def len {T : Type} (m : HandleMap T) : Nat := m.num_entries

/-- Source `HandleMap::capacity`: the number of slots (`entries.len()`). -/
def capacity {T : Type} (m : HandleMap T) : Nat := m.entries.length

/-- Source `HandleMap::new_with_capacity` (the generated instance id is a
parameter, see the header comment).  Panics (`none`) if the request exceeds
`MAX_CAPACITY`; otherwise builds `max request MIN_CAPACITY` slots, all at
version 1, chained as a single free list ending in `EndOfFreeList`. -/
def new_with_capacity {T : Type} (id request : Nat) : Option (HandleMap T) :=
  if request ≤ MAX_CAPACITY then
    let capacity := max request MIN_CAPACITY
    some { id := id % 65536
         , first_free := 0
         , num_entries := 0
         , entries :=
             (List.range (capacity - 1)).map (fun i => ⟨1, .InFreeList (to_u16 (i + 1))⟩)
             ++ [⟨1, .EndOfFreeList⟩] }
  else none

/-- Source `HandleMap::new`: default capacity. -/
def new {T : Type} (id : Nat) : Option (HandleMap T) :=
  new_with_capacity id MIN_CAPACITY

end HandleMap

/-- The capacity-doubling loop in `ensure_capacity`:
`while next_cap <= cap_at_least { next_cap *= 2 }`.
With `next_cap = 0` the source loop would never terminate; `capacity()` is
never 0 there (the constructor allocates at least `MIN_CAPACITY` slots and
the loop is guarded by `len != capacity`), and we return 0 in that
impossible case. -/
def growCap (cap_at_least : Nat) (next_cap : Nat) : Nat :=
  if next_cap = 0 then 0
  else if next_cap ≤ cap_at_least then growCap cap_at_least (next_cap * 2)
  else next_cap
termination_by cap_at_least + 1 - next_cap
decreasing_by omega

namespace HandleMap

/-- The growth loop in `ensure_capacity`: push `k` fresh entries, each
linked to the current `first_free` and becoming the new `first_free`
(the source sets `first_free = to_u16(entries.len() - 1)` right after the
push, i.e. the index of the entry just pushed). -/
def pushFree {T : Type} (m : HandleMap T) : Nat → HandleMap T
  | 0 => m
  | k + 1 =>
    pushFree { m with entries := m.entries ++ [⟨1, .InFreeList m.first_free⟩]
                    , first_free := to_u16 m.entries.length } k

/-- Source `HandleMap::ensure_capacity`.  The two leading asserts and the
out-of-bounds / occupied `first_free` checks are panics (`none`); the
growth loop runs `while entries.len() < next_cap - 1`, i.e. exactly
`next_cap - 1 - capacity` pushes.  (`entries.reserve` only affects the
backing allocation, not the slot sequence, and is omitted.) -/
def ensure_capacity {T : Type} (m : HandleMap T) (cap_at_least : Nat) :
    Option (HandleMap T) :=
  if m.len = m.capacity then none
  else if MAX_CAPACITY < cap_at_least then none
  else if cap_at_least < m.capacity then some m
  else
    let next_cap := min (growCap cap_at_least m.capacity) MAX_CAPACITY
    match m.entries[m.first_free]? with
    | none => none
    | some e =>
      if e.state.is_occupied then none
      else some (pushFree m (next_cap - 1 - m.capacity))

/-- Source `HandleMap::insert`.  Ensures capacity for `len() + 1`, pops the
slot at `first_free` (panicking if it is not an `InFreeList` link),
increments its version by one skipping the value zero, stores the value
and returns the handle. -/
def insert {T : Type} (m : HandleMap T) (v : T) : Option (HandleMap T × Handle) :=
  match m.ensure_capacity (m.len + 1) with
  | none => none
  | some m1 =>
    let index := m1.first_free
    match m1.entries[index]? with
    | none => none
    | some entry =>
      match entry.state with
      | .InFreeList i =>
        let v1 := (entry.version + 1) % 65536
        let v2 := if v1 = 0 then v1 + 2 else v1
        let m2 : HandleMap T :=
          { m1 with entries := m1.entries.set index ⟨v2, .Active v⟩
                  , first_free := i
                  , num_entries := m1.num_entries + 1 }
        some (m2, ⟨m1.id, v2, index⟩)
      | _ => none

/-- Source `HandleMap::check_handle`: the shared validation helper.
Checks, in order: map id (`WrongMap`), index within `entries.len()`
(`IndexPastEnd`), stored version (`StaleVersion`); returns the index. -/
def check_handle {T : Type} (m : HandleMap T) (h : Handle) : Except HandleError Nat :=
  if h.map_id ≠ m.id then .error .WrongMap
  else if m.entries.length ≤ h.index then .error .IndexPastEnd
  else if (m.entries.getD h.index default).version ≠ h.version then .error .StaleVersion
  else .ok h.index

/-- Source `HandleMap::delete`.  On a validation error the map is returned
untouched; on success the slot's version is incremented by one (`u16`),
the slot is pushed onto the head of the free list and the occupied count
decremented.  A validated slot that is not occupied is a panic. -/
def delete {T : Type} (m : HandleMap T) (h : Handle) :
    Option (HandleMap T × Except HandleError Unit) :=
  match m.check_handle h with
  | .error e => some (m, .error e)
  | .ok index =>
    let entry := m.entries.getD index default
    if entry.state.is_occupied then
      some ({ m with entries :=
                m.entries.set index ⟨(entry.version + 1) % 65536, .InFreeList m.first_free⟩
                   , num_entries := m.num_entries - 1
                   , first_free := h.index }
           , .ok ())
    else none

/-- Source `HandleMap::get`: validate, then return the stored item
(`.expect` on an unoccupied validated slot is a panic). -/
def get {T : Type} (m : HandleMap T) (h : Handle) : Option (Except HandleError T) :=
  match m.check_handle h with
  | .error e => some (.error e)
  | .ok idx =>
    match (m.entries.getD idx default).state.get_item with
    | some item => some (.ok item)
    | none => none

/-- Source `HandleMap::get_mut`: same validation as `get`, with a `&mut
self` receiver (threaded through; the lookup itself never changes the
arena). -/
def get_mut {T : Type} (m : HandleMap T) (h : Handle) :
    Option (HandleMap T × Except HandleError T) :=
  match m.check_handle h with
  | .error e => some (m, .error e)
  | .ok idx =>
    match (m.entries.getD idx default).state.get_item_mut with
    | some item => some (m, .ok item)
    | none => none

end HandleMap

/-- Source `HANDLE_MAGIC = 0x4153`, stuffed into the top 16 bits. -/
def HANDLE_MAGIC : Nat := 0x4153

namespace Handle

/-- Source `Handle::into_u64`:
`(magic << 48) | (map_id << 32) | (index << 16) | version`. -/
def into_u64 (h : Handle) : Nat :=
  (HANDLE_MAGIC <<< 48) ||| (h.map_id <<< 32) ||| (h.index <<< 16) ||| h.version

/-- Source `Handle::is_valid`: top 16 bits must be the magic constant and
the low bit (of the version field) must be clear. -/
def is_valid (v : Nat) : Bool :=
  v >>> 48 == HANDLE_MAGIC && (v &&& 1) == 0

/-- Source `Handle::from_u64`: `InvalidHandle` unless `is_valid`, else
unpack the three fields (`as u16` casts keep the low 16 bits). -/
def from_u64 (v : Nat) : Except HandleError Handle :=
  if is_valid v then
    .ok { map_id := (v >>> 32) % 65536, version := v % 65536, index := (v >>> 16) % 65536 }
  else .error .InvalidHandle

end Handle

/-- A single-arena operation: an insert (of a value) or a delete (of a
handle), for reasoning about arbitrary finite operation sequences. -/
inductive Op : Type where
  | ins : Nat → Op
  | del : Handle → Op
deriving DecidableEq

/-- Run one operation, keeping the (possibly unchanged) map; a panic kills
the run. -/
def step (m : HandleMap Nat) : Op → Option (HandleMap Nat)
  | .ins v => (m.insert v).map Prod.fst
  | .del h => (m.delete h).map Prod.fst

/-- Run a sequence of operations from a state. -/
def runFrom (m : HandleMap Nat) : List Op → Option (HandleMap Nat)
  | [] => some m
  | op :: ops =>
    match step m op with
    | none => none
    | some m1 => runFrom m1 ops

/-- Validation algorithm exactly as worded in the specification,
section 4.1: (1) the handle's instance id must equal the arena's, else
`WrongMap`; (2) the handle's index must be within the current slot
sequence length, else `IndexPastEnd`; (3) the slot's stored version must
equal the handle's, else `StaleVersion`; an earlier failing check
short-circuits the later ones. -/
def checkHandleSpec {T : Type} (m : HandleMap T) (h : Handle) : Except HandleError Nat :=
  if h.map_id ≠ m.id then .error .WrongMap
  else if ¬ h.index < m.entries.length then .error .IndexPastEnd
  else if ¬ (m.entries.getD h.index default).version = h.version then .error .StaleVersion
  else .ok h.index

/-- Free-list traversal: `Chain entries a l` says that starting at index
`a` and following `InFreeList` links visits exactly the indices in `l`
(in order) and stops at an `EndOfFreeList` slot, all in bounds. -/
inductive Chain {T : Type} (entries : List (Entry T)) : Nat → List Nat → Prop where
  | last : ∀ a, a < entries.length →
      (entries.getD a default).state = .EndOfFreeList → Chain entries a [a]
  | cons : ∀ a b l, a < entries.length →
      (entries.getD a default).state = .InFreeList b →
      Chain entries b l → Chain entries a (a :: l)

/-- The internal well-formedness invariant of an arena (the contents of
`assert_valid`, plus the version-parity and field-width facts). -/
structure Valid {T : Type} (m : HandleMap T) : Prop where
  idLt : m.id < 65536
  capLe : m.entries.length ≤ MAX_CAPACITY
  vers : ∀ i, i < m.entries.length →
      (m.entries.getD i default).version < 65536 ∧
      (m.entries.getD i default).version ≠ 0 ∧
      ((m.entries.getD i default).version % 2 = 0 ↔
        (m.entries.getD i default).state.is_occupied = true)
  numCount : m.num_entries = m.entries.countP (fun e => e.state.is_occupied)
  freeList : ∃ l, Chain m.entries m.first_free l ∧ l.Nodup ∧
      (∀ i, i < m.entries.length →
        ((m.entries.getD i default).state.is_occupied = false ↔ i ∈ l)) ∧
      m.num_entries + l.length = m.entries.length

/-- States reachable by construction, insert, delete and growth. -/
inductive Reachable {T : Type} : HandleMap T → Prop where
  | construct : ∀ id request m, HandleMap.new_with_capacity id request = some m →
      Reachable m
  | insert : ∀ m v m' h, Reachable m → m.insert v = some (m', h) → Reachable m'
  | delete : ∀ m h m' r, Reachable m → m.delete h = some (m', r) → Reachable m'
  | grow : ∀ m c m', Reachable m → m.ensure_capacity c = some m' → Reachable m'

/-- A handle is live in a state: it points at an occupied slot whose
stored version matches the handle. -/
structure Live (m : HandleMap Nat) (h : Handle) : Prop where
  idEq : h.map_id = m.id
  idx : h.index < m.entries.length
  ver : (m.entries.getD h.index default).version = h.version
  act : (m.entries.getD h.index default).state.is_occupied = true
  vlt : h.version < 65536

/-- A handle is stale in a state: its slot's stored version has moved `s`
increments past the handle's version (modulo the `u16` wrap). -/
structure Stale (m : HandleMap Nat) (h : Handle) (s : Nat) : Prop where
  idEq : h.map_id = m.id
  idx : h.index < m.entries.length
  ver : (m.entries.getD h.index default).version = (h.version + s) % 65536
  vlt : h.version < 65536

/-- The freshly constructed arena `new_with_capacity 0 4`. -/
def fresh0 : HandleMap Nat :=
  ⟨0, 0, 0, [⟨1, .InFreeList 1⟩, ⟨1, .InFreeList 2⟩, ⟨1, .InFreeList 3⟩, ⟨1, .EndOfFreeList⟩]⟩

/-- The handle returned by the first insert into `fresh0`. -/
def h0c : Handle := ⟨0, 2, 0⟩

/-- `fresh0` after `insert 42` (which returned `h0c`). -/
def m2c : HandleMap Nat :=
  ⟨0, 1, 1, [⟨2, .Active 42⟩, ⟨1, .InFreeList 2⟩, ⟨1, .InFreeList 3⟩, ⟨1, .EndOfFreeList⟩]⟩

/-- `m2c` after deleting `h0c` and then `j` further insert/delete pairs on
slot 0: the slot's version is `3 + 2*j`. -/
def cexState (j : Nat) : HandleMap Nat :=
  ⟨0, 0, 0, [⟨3 + 2 * j, .InFreeList 1⟩, ⟨1, .InFreeList 2⟩, ⟨1, .InFreeList 3⟩,
             ⟨1, .EndOfFreeList⟩]⟩

/-- `cexState j` after one more insert (slot 0 active at version
`4 + 2*j`). -/
def cexMid (j : Nat) : HandleMap Nat :=
  ⟨0, 1, 1, [⟨4 + 2 * j, .Active 0⟩, ⟨1, .InFreeList 2⟩, ⟨1, .InFreeList 3⟩,
             ⟨1, .EndOfFreeList⟩]⟩

/-- `cexState 32766` after the final insert: the version has wrapped all
the way back to 2, the version `h0c` carries. -/
def cexFinal : HandleMap Nat :=
  ⟨0, 1, 1, [⟨2, .Active 0⟩, ⟨1, .InFreeList 2⟩, ⟨1, .InFreeList 3⟩, ⟨1, .EndOfFreeList⟩]⟩

/-- `n` insert/delete pairs on slot 0, starting after `j` earlier pairs
(each delete uses the handle version its insert returned). -/
def cycleOpsFrom (j : Nat) : Nat → List Op
  | 0 => []
  | n + 1 => .ins 0 :: .del ⟨0, 4 + 2 * j, 0⟩ :: cycleOpsFrom (j + 1) n

/-- The wrap-around operation sequence: delete `h0c`, then 32766
insert/delete pairs on slot 0, then one final insert. -/
def cexOps : List Op := .del h0c :: (cycleOpsFrom 0 32766 ++ [.ins 0])

/-- The arena after inserting four values into `fresh0`: the fourth insert
grows the capacity from 4 to 7 slots. -/
def c3m4 : HandleMap Nat :=
  ⟨0, 5, 4, [⟨2, .Active 0⟩, ⟨2, .Active 1⟩, ⟨2, .Active 2⟩, ⟨1, .EndOfFreeList⟩,
             ⟨1, .InFreeList 3⟩, ⟨1, .InFreeList 4⟩, ⟨2, .Active 3⟩]⟩

/-- The arena after inserting three values into `fresh0` (capacity still 4,
one free slot left: the terminator). -/
def c3m3 : HandleMap Nat :=
  ⟨0, 3, 3, [⟨2, .Active 0⟩, ⟨2, .Active 1⟩, ⟨2, .Active 2⟩, ⟨1, .EndOfFreeList⟩]⟩

/-- `c3m3` after the growth performed by the fourth insert (three new free
slots pushed onto the free list, capacity 7). -/
def c3m3g : HandleMap Nat :=
  ⟨0, 6, 3, [⟨2, .Active 0⟩, ⟨2, .Active 1⟩, ⟨2, .Active 2⟩, ⟨1, .EndOfFreeList⟩,
             ⟨1, .InFreeList 3⟩, ⟨1, .InFreeList 4⟩, ⟨1, .InFreeList 5⟩]⟩

/-- `fresh0` grown by `ensure_capacity 4` (capacity 7, nothing occupied). -/
def c3grown : HandleMap Nat :=
  ⟨0, 6, 0, [⟨1, .InFreeList 1⟩, ⟨1, .InFreeList 2⟩, ⟨1, .InFreeList 3⟩, ⟨1, .EndOfFreeList⟩,
             ⟨1, .InFreeList 0⟩, ⟨1, .InFreeList 4⟩, ⟨1, .InFreeList 5⟩]⟩

/-! ## Bit-arithmetic toolkit for the handle codec -/

/-- Disjoint `or` is addition: `a * 2^k ||| b = a * 2^k + b` when `b < 2^k`. -/
theorem lor_mul_pow_add : ∀ (k a b : Nat), b < 2 ^ k → a * 2 ^ k ||| b = a * 2 ^ k + b := by
  intro k
  induction k with
  | zero =>
    intro a b hb
    have hb0 : b = 0 := by omega
    subst hb0
    simp
  | succ n ih =>
    intro a b hb
    have hx : a * 2 ^ (n + 1) = a * 2 ^ n * 2 := by ring
    have hdiv : (a * 2 ^ (n + 1) ||| b) / 2 = a * 2 ^ n ||| b / 2 := by
      rw [Nat.or_div_two, hx, Nat.mul_div_cancel _ (by omega : (0:Nat) < 2)]
    have hmod0 : a * 2 ^ (n + 1) % 2 = 0 := by
      rw [hx]; exact Nat.mul_mod_left _ 2
    have hmod : (a * 2 ^ (n + 1) ||| b) % 2 = b % 2 := by
      rcases Nat.mod_two_eq_zero_or_one b with hbm | hbm
      · rcases Nat.mod_two_eq_zero_or_one (a * 2 ^ (n + 1) ||| b) with h2 | h2
        · omega
        · rcases Nat.or_mod_two_eq_one.mp h2 with h3 | h3 <;> omega
      · rw [hbm]; exact Nat.or_mod_two_eq_one.mpr (Or.inr hbm)
    have hrec := ih (a * 1) (b / 2) (by omega)
    simp only [Nat.mul_one] at hrec
    have hX : a * 2 ^ (n + 1) = 2 * (a * 2 ^ n) := by ring
    have hsplit := Nat.div_add_mod (a * 2 ^ (n + 1) ||| b) 2
    have hbsplit := Nat.div_add_mod b 2
    rw [hdiv, hrec, hmod] at hsplit
    omega

/-- Closed additive form of `into_u64` for in-range fields. -/
theorem into_u64_eq (h : Handle) (h1 : h.map_id < 65536) (h2 : h.index < 65536)
    (h3 : h.version < 65536) :
    h.into_u64 = ((16723 * 65536 + h.map_id) * 65536 + h.index) * 65536 + h.version := by
  have e48 : (2:Nat) ^ 48 = 281474976710656 := by norm_num
  have e32 : (2:Nat) ^ 32 = 4294967296 := by norm_num
  have e16 : (2:Nat) ^ 16 = 65536 := by norm_num
  unfold Handle.into_u64 HANDLE_MAGIC
  rw [Nat.shiftLeft_eq, Nat.shiftLeft_eq, Nat.shiftLeft_eq]
  rw [lor_mul_pow_add 48 0x4153 (h.map_id * 2 ^ 32) (by rw [e48, e32]; omega)]
  have s1 : (0x4153:Nat) * 2 ^ 48 + h.map_id * 2 ^ 32 = (16723 * 65536 + h.map_id) * 2 ^ 32 := by
    rw [e48, e32]; ring
  rw [s1, lor_mul_pow_add 32 (16723 * 65536 + h.map_id) (h.index * 2 ^ 16)
    (by rw [e32, e16]; omega)]
  have s2 : (16723 * 65536 + h.map_id) * 2 ^ 32 + h.index * 2 ^ 16 =
      ((16723 * 65536 + h.map_id) * 65536 + h.index) * 2 ^ 16 := by
    rw [e32, e16]; ring
  rw [s2, lor_mul_pow_add 16 ((16723 * 65536 + h.map_id) * 65536 + h.index) h.version
    (by rw [e16]; omega)]
  rw [e16]

/-- Decoding inverts encoding on any handle with in-range fields and an
even version. -/
theorem from_into (h : Handle) (h1 : h.map_id < 65536) (h2 : h.index < 65536)
    (h3 : h.version < 65536) (h4 : h.version % 2 = 0) :
    Handle.from_u64 h.into_u64 = .ok h := by
  rw [into_u64_eq h h1 h2 h3]
  have e48 : (2:Nat) ^ 48 = 281474976710656 := by norm_num
  have e32 : (2:Nat) ^ 32 = 4294967296 := by norm_num
  have e16 : (2:Nat) ^ 16 = 65536 := by norm_num
  unfold Handle.from_u64 Handle.is_valid HANDLE_MAGIC
  have d1 : (((16723 * 65536 + h.map_id) * 65536 + h.index) * 65536 + h.version) >>> 48
      = 16723 := by
    rw [Nat.shiftRight_eq_div_pow, e48]; omega
  have d2 : (((16723 * 65536 + h.map_id) * 65536 + h.index) * 65536 + h.version) &&& 1
      = 0 := by
    rw [Nat.and_one_is_mod]; omega
  have d3 : (((16723 * 65536 + h.map_id) * 65536 + h.index) * 65536 + h.version) >>> 32 % 65536
      = h.map_id := by
    rw [Nat.shiftRight_eq_div_pow, e32]; omega
  have d4 : (((16723 * 65536 + h.map_id) * 65536 + h.index) * 65536 + h.version) >>> 16 % 65536
      = h.index := by
    rw [Nat.shiftRight_eq_div_pow, e16]; omega
  have d5 : (((16723 * 65536 + h.map_id) * 65536 + h.index) * 65536 + h.version) % 65536
      = h.version := by omega
  rw [d1, d2, d3, d4, d5]
  simp

/-! ## List access helpers -/

theorem getD_set_self {α : Type} (l : List α) (i : Nat) (a d : α) (hi : i < l.length) :
    (l.set i a).getD i d = a := by
  simp [List.getD_eq_getElem?_getD, List.getElem?_set_self hi]

theorem getD_set_ne {α : Type} (l : List α) (i j : Nat) (a d : α) (hij : i ≠ j) :
    (l.set i a).getD j d = l.getD j d := by
  simp [List.getD_eq_getElem?_getD, List.getElem?_set_ne hij]

theorem getD_append_left {α : Type} (l1 l2 : List α) (i : Nat) (d : α) (hi : i < l1.length) :
    (l1 ++ l2).getD i d = l1.getD i d := by
  simp [List.getD_eq_getElem?_getD, List.getElem?_append_left hi]

theorem getD_eq_of_getElem? {α : Type} (l : List α) (i : Nat) (a d : α)
    (hi : l[i]? = some a) : l.getD i d = a := by
  simp [List.getD_eq_getElem?_getD, hi]

theorem lt_length_of_getElem? {α : Type} (l : List α) (i : Nat) (a : α)
    (hi : l[i]? = some a) : i < l.length := by
  rcases List.getElem?_eq_some.mp hi with ⟨hl, _⟩
  exact hl

theorem getElem?_of_getD {α : Type} (l : List α) (i : Nat) (d : α) (hi : i < l.length) :
    l[i]? = some (l.getD i d) := by
  simp [List.getD_eq_getElem?_getD, List.getElem?_eq_getElem hi]

/-- Replacing one element moves `countP` by the difference of the old and
new element's contribution (stated addition-only to stay in `Nat`). -/
theorem countP_set {α : Type} (p : α → Bool) :
    ∀ (l : List α) (i : Nat) (a d : α), i < l.length →
      (l.set i a).countP p + (if p (l.getD i d) then 1 else 0) =
        l.countP p + (if p a then 1 else 0) := by
  intro l
  induction l with
  | nil => intro i a d hi; simp at hi
  | cons x xs ih =>
    intro i a d hi
    cases i with
    | zero =>
      simp only [List.set_cons_zero, List.countP_cons, List.getD_cons_zero]
      omega
    | succ n =>
      simp only [List.set_cons_succ, List.countP_cons, List.getD_cons_succ]
      have := ih n a d (by simpa using hi)
      omega

/-- Setting a free slot to an occupied one raises the occupied count by 1. -/
theorem countP_flip_up {T : Type} (es : List (Entry T)) (i : Nat) (e2 : Entry T)
    (hi : i < es.length) (hold : (es.getD i default).state.is_occupied = false)
    (hnew : e2.state.is_occupied = true) :
    (es.set i e2).countP (fun e => e.state.is_occupied) =
      es.countP (fun e => e.state.is_occupied) + 1 := by
  have hcnt := countP_set (fun e => e.state.is_occupied) es i e2 default hi
  simp only [hold, hnew] at hcnt
  simp at hcnt
  omega

/-- Setting an occupied slot to a free one lowers the occupied count by 1. -/
theorem countP_flip_down {T : Type} (es : List (Entry T)) (i : Nat) (e2 : Entry T)
    (hi : i < es.length) (hold : (es.getD i default).state.is_occupied = true)
    (hnew : e2.state.is_occupied = false) :
    (es.set i e2).countP (fun e => e.state.is_occupied) + 1 =
      es.countP (fun e => e.state.is_occupied) := by
  have hcnt := countP_set (fun e => e.state.is_occupied) es i e2 default hi
  simp only [hold, hnew] at hcnt
  simp at hcnt
  omega

theorem countP_pos_of_getD {α : Type} (p : α → Bool) (l : List α) (i : Nat) (d : α)
    (hi : i < l.length) (hp : p (l.getD i d) = true) : 0 < l.countP p := by
  refine List.countP_pos_iff.mpr ⟨l.getD i d, ?_, hp⟩
  have := getElem?_of_getD l i d hi
  exact List.getElem?_mem this

/-! ## Structural lemmas about the arena operations -/

namespace HandleMap

theorem pushFree_id {T : Type} : ∀ (k : Nat) (m : HandleMap T), (m.pushFree k).id = m.id := by
  intro k
  induction k with
  | zero => intro m; rfl
  | succ n ih => intro m; exact ih _

theorem pushFree_num {T : Type} :
    ∀ (k : Nat) (m : HandleMap T), (m.pushFree k).num_entries = m.num_entries := by
  intro k
  induction k with
  | zero => intro m; rfl
  | succ n ih => intro m; exact ih _

theorem pushFree_len {T : Type} :
    ∀ (k : Nat) (m : HandleMap T), (m.pushFree k).entries.length = m.entries.length + k := by
  intro k
  induction k with
  | zero => intro m; rfl
  | succ n ih =>
    intro m
    rw [pushFree, ih]
    simp
    omega

theorem pushFree_getD {T : Type} :
    ∀ (k : Nat) (m : HandleMap T) (i : Nat), i < m.entries.length →
      (m.pushFree k).entries.getD i default = m.entries.getD i default := by
  intro k
  induction k with
  | zero => intro m i _; rfl
  | succ n ih =>
    intro m i hi
    rw [pushFree, ih]
    · exact getD_append_left _ _ _ _ hi
    · simp; omega

/-- Inversion for `ensure_capacity`: a successful call either returned the
map unchanged or appended some entries via `pushFree`. -/
theorem ensure_cases {T : Type} (m : HandleMap T) (c : Nat) (m' : HandleMap T)
    (hm : m.ensure_capacity c = some m') : m' = m ∨ ∃ k, m' = m.pushFree k := by
  unfold ensure_capacity at hm
  split at hm
  · exact absurd hm (by simp)
  split at hm
  · exact absurd hm (by simp)
  split at hm
  · left; exact (Option.some.inj hm).symm
  · rcases hE : m.entries[m.first_free]? with _ | e <;> rw [hE] at hm
    · simp at hm
    · by_cases hocc : e.state.is_occupied = true
      · simp [hocc] at hm
      · simp only [Bool.not_eq_true] at hocc
        simp [hocc] at hm
        right
        exact ⟨_, hm.symm⟩

theorem ensure_id {T : Type} (m : HandleMap T) (c : Nat) (m' : HandleMap T)
    (hm : m.ensure_capacity c = some m') : m'.id = m.id := by
  rcases ensure_cases m c m' hm with h | ⟨k, h⟩
  · rw [h]
  · rw [h, pushFree_id]

theorem ensure_num {T : Type} (m : HandleMap T) (c : Nat) (m' : HandleMap T)
    (hm : m.ensure_capacity c = some m') : m'.num_entries = m.num_entries := by
  rcases ensure_cases m c m' hm with h | ⟨k, h⟩
  · rw [h]
  · rw [h, pushFree_num]

theorem ensure_len_ge {T : Type} (m : HandleMap T) (c : Nat) (m' : HandleMap T)
    (hm : m.ensure_capacity c = some m') : m.entries.length ≤ m'.entries.length := by
  rcases ensure_cases m c m' hm with h | ⟨k, h⟩
  · rw [h]
  · rw [h, pushFree_len]; omega

theorem ensure_getD {T : Type} (m : HandleMap T) (c : Nat) (m' : HandleMap T)
    (hm : m.ensure_capacity c = some m') (i : Nat) (hi : i < m.entries.length) :
    m'.entries.getD i default = m.entries.getD i default := by
  rcases ensure_cases m c m' hm with h | ⟨k, h⟩
  · rw [h]
  · rw [h, pushFree_getD _ _ _ hi]

/-- Inversion for a successful `insert`. -/
theorem insert_eq {T : Type} (m : HandleMap T) (v : T) (m' : HandleMap T) (h : Handle)
    (hm : m.insert v = some (m', h)) :
    ∃ m1 entry i,
      m.ensure_capacity (m.num_entries + 1) = some m1 ∧
      m1.entries[m1.first_free]? = some entry ∧
      entry.state = .InFreeList i ∧
      h.map_id = m1.id ∧
      h.version = (if (entry.version + 1) % 65536 = 0
                   then (entry.version + 1) % 65536 + 2 else (entry.version + 1) % 65536) ∧
      h.index = m1.first_free ∧
      m' = { m1 with entries := m1.entries.set m1.first_free ⟨h.version, .Active v⟩
                   , first_free := i
                   , num_entries := m1.num_entries + 1 } := by
  unfold insert at hm
  split at hm
  · exact absurd hm (by simp)
  rename_i m1 hens
  dsimp only [] at hm
  split at hm
  · exact absurd hm (by simp)
  rename_i entry hE
  split at hm
  case _ i hst =>
    simp only [Option.some.injEq, Prod.mk.injEq] at hm
    rcases hm with ⟨hm1, hm2⟩
    subst hm1
    subst hm2
    exact ⟨m1, entry, i, hens, hE, hst, rfl, rfl, rfl, rfl⟩
  · exact absurd hm (by simp)

/-- The `ok` result of `check_handle` is exactly the three-way conjunction. -/
theorem check_handle_ok {T : Type} (m : HandleMap T) (h : Handle) (i : Nat) :
    m.check_handle h = .ok i ↔
      i = h.index ∧ h.map_id = m.id ∧ h.index < m.entries.length ∧
      (m.entries.getD h.index default).version = h.version := by
  constructor
  · intro hc
    unfold check_handle at hc
    by_cases h1 : h.map_id = m.id
    · rw [if_neg (not_not_intro h1)] at hc
      by_cases h2 : m.entries.length ≤ h.index
      · rw [if_pos h2] at hc; exact absurd hc (by simp)
      · rw [if_neg h2] at hc
        by_cases h3 : (m.entries.getD h.index default).version = h.version
        · rw [if_neg (not_not_intro h3)] at hc
          have hix : h.index = i := by simpa using hc
          exact ⟨hix.symm, h1, by omega, h3⟩
        · rw [if_pos h3] at hc; exact absurd hc (by simp)
    · rw [if_pos h1] at hc; exact absurd hc (by simp)
  · intro ⟨hi, h1, h2, h3⟩
    subst hi
    unfold check_handle
    rw [if_neg (not_not_intro h1), if_neg (by omega), if_neg (not_not_intro h3)]

/-- A `check_handle` error is insensitive to the returned-index detail:
characterize each error case. -/
theorem check_handle_error {T : Type} (m : HandleMap T) (h : Handle) (e : HandleError) :
    m.check_handle h = .error e ↔
      (e = .WrongMap ∧ h.map_id ≠ m.id) ∨
      (e = .IndexPastEnd ∧ h.map_id = m.id ∧ m.entries.length ≤ h.index) ∨
      (e = .StaleVersion ∧ h.map_id = m.id ∧ h.index < m.entries.length ∧
        (m.entries.getD h.index default).version ≠ h.version) := by
  unfold check_handle
  by_cases h1 : h.map_id = m.id
  · rw [if_neg (not_not_intro h1)]
    by_cases h2 : m.entries.length ≤ h.index
    · rw [if_pos h2]
      constructor
      · intro hc
        right; left
        exact ⟨by simpa using hc.symm, h1, h2⟩
      · rintro (⟨rfl, hbad⟩ | ⟨rfl, _, _⟩ | ⟨rfl, _, hlt, _⟩)
        · exact absurd h1 hbad
        · rfl
        · omega
    · rw [if_neg h2]
      by_cases h3 : (m.entries.getD h.index default).version = h.version
      · rw [if_neg (not_not_intro h3)]
        constructor
        · intro hc; exact absurd hc (by simp)
        · rintro (⟨rfl, hbad⟩ | ⟨rfl, _, hle⟩ | ⟨rfl, _, _, hne⟩)
          · exact absurd h1 hbad
          · exact absurd hle h2
          · exact absurd h3 hne
      · rw [if_pos h3]
        constructor
        · intro hc
          right; right
          exact ⟨by simpa using hc.symm, h1, by omega, h3⟩
        · rintro (⟨rfl, hbad⟩ | ⟨rfl, _, hle⟩ | ⟨rfl, _, _, _⟩)
          · exact absurd h1 hbad
          · exact absurd hle h2
          · rfl
  · rw [if_pos h1]
    constructor
    · intro hc
      left
      exact ⟨by simpa using hc.symm, h1⟩
    · rintro (⟨rfl, _⟩ | ⟨rfl, hid, _⟩ | ⟨rfl, hid, _, _⟩)
      · rfl
      · exact absurd hid h1
      · exact absurd hid h1

/-- Inversion for `delete`: a successful call either failed validation and
returned the map unchanged, or removed the (occupied) validated slot. -/
theorem delete_eq {T : Type} (m : HandleMap T) (h : Handle)
    (p : HandleMap T × Except HandleError Unit) (hm : m.delete h = some p) :
    (∃ e, m.check_handle h = .error e ∧ p = (m, .error e)) ∨
    (m.check_handle h = .ok h.index ∧
      (m.entries.getD h.index default).state.is_occupied = true ∧
      p = ({ m with
              entries := m.entries.set h.index
                ⟨((m.entries.getD h.index default).version + 1) % 65536,
                  .InFreeList m.first_free⟩,
              num_entries := m.num_entries - 1,
              first_free := h.index }, .ok ())) := by
  unfold delete at hm
  split at hm
  · rename_i e hc
    left
    exact ⟨e, hc, by simpa using hm.symm⟩
  · rename_i idx hc
    have hidx : idx = h.index := ((check_handle_ok m h idx).mp hc).1
    subst hidx
    dsimp only [] at hm
    split at hm
    · rename_i hocc
      right
      exact ⟨hc, hocc, by simpa using hm.symm⟩
    · exact absurd hm (by simp)

/-- On a validation error, `delete` returns the arena untouched. -/
theorem delete_error {T : Type} (m : HandleMap T) (h : Handle) (e : HandleError)
    (hc : m.check_handle h = .error e) : m.delete h = some (m, .error e) := by
  unfold delete
  rw [hc]

/-- On a validation error, `get` reports exactly that error. -/
theorem get_error {T : Type} (m : HandleMap T) (h : Handle) (e : HandleError)
    (hc : m.check_handle h = .error e) : m.get h = some (.error e) := by
  unfold get
  rw [hc]

/-- On a validation error, `get_mut` reports exactly that error and
returns the arena untouched. -/
theorem get_mut_error {T : Type} (m : HandleMap T) (h : Handle) (e : HandleError)
    (hc : m.check_handle h = .error e) : m.get_mut h = some (m, .error e) := by
  unfold get_mut
  rw [hc]

/-- Inversion for `get`. -/
theorem get_eq {T : Type} (m : HandleMap T) (h : Handle) (r : Except HandleError T)
    (hm : m.get h = some r) :
    (∃ e, m.check_handle h = .error e ∧ r = .error e) ∨
    (∃ t, m.check_handle h = .ok h.index ∧
      (m.entries.getD h.index default).state.get_item = some t ∧ r = .ok t) := by
  unfold get at hm
  split at hm
  · rename_i e hc
    left
    exact ⟨e, hc, by simpa using hm.symm⟩
  · rename_i idx hc
    have hidx : idx = h.index := ((check_handle_ok m h idx).mp hc).1
    subst hidx
    split at hm
    · rename_i t ht
      right
      exact ⟨t, hc, ht, by simpa using hm.symm⟩
    · exact absurd hm (by simp)

/-- Inversion for `get_mut`. -/
theorem get_mut_eq {T : Type} (m : HandleMap T) (h : Handle)
    (p : HandleMap T × Except HandleError T) (hm : m.get_mut h = some p) :
    (∃ e, m.check_handle h = .error e ∧ p = (m, .error e)) ∨
    (∃ t, m.check_handle h = .ok h.index ∧
      (m.entries.getD h.index default).state.get_item_mut = some t ∧ p = (m, .ok t)) := by
  unfold get_mut at hm
  split at hm
  · rename_i e hc
    left
    exact ⟨e, hc, by simpa using hm.symm⟩
  · rename_i idx hc
    have hidx : idx = h.index := ((check_handle_ok m h idx).mp hc).1
    subst hidx
    split at hm
    · rename_i t ht
      right
      exact ⟨t, hc, ht, by simpa using hm.symm⟩
    · exact absurd hm (by simp)

end HandleMap

/-! ## Entry-state computation lemmas -/

@[simp] theorem is_occupied_active {T : Type} (t : T) :
    (EntryState.Active t).is_occupied = true := rfl

@[simp] theorem is_occupied_ifl {T : Type} (i : Nat) :
    (EntryState.InFreeList i : EntryState T).is_occupied = false := rfl

@[simp] theorem is_occupied_eol {T : Type} :
    (EntryState.EndOfFreeList : EntryState T).is_occupied = false := rfl

@[simp] theorem get_item_active {T : Type} (t : T) :
    (EntryState.Active t).get_item = some t := rfl

@[simp] theorem get_item_ifl {T : Type} (i : Nat) :
    (EntryState.InFreeList i : EntryState T).get_item = none := rfl

@[simp] theorem get_item_eol {T : Type} :
    (EntryState.EndOfFreeList : EntryState T).get_item = none := rfl

@[simp] theorem get_item_mut_active {T : Type} (t : T) :
    (EntryState.Active t).get_item_mut = some t := rfl

@[simp] theorem is_end_of_list_active {T : Type} (t : T) :
    (EntryState.Active t).is_end_of_list = false := rfl

@[simp] theorem is_end_of_list_ifl {T : Type} (i : Nat) :
    (EntryState.InFreeList i : EntryState T).is_end_of_list = false := rfl

@[simp] theorem is_end_of_list_eol {T : Type} :
    (EntryState.EndOfFreeList : EntryState T).is_end_of_list = true := rfl

theorem occupied_of_state {T : Type} (s : EntryState T) (hs : s.is_occupied = true) :
    ∃ t, s = .Active t := by
  cases s with
  | Active t => exact ⟨t, rfl⟩
  | InFreeList i => simp at hs
  | EndOfFreeList => simp at hs

theorem MAX_CAPACITY_eq : MAX_CAPACITY = 32767 := by decide

theorem getD_append_self {α : Type} (l : List α) (a d : α) :
    (l ++ [a]).getD l.length d = a := by
  simp [List.getD_eq_getElem?_getD, List.getElem?_append_right (Nat.le_refl l.length)]

/-- Facts about insert's version bump on an odd (free) version: the
result is even, nonzero and fits `u16`. -/
theorem bump_facts (w : Nat) (hw : w % 2 = 1) :
    (if (w + 1) % 65536 = 0 then (w + 1) % 65536 + 2 else (w + 1) % 65536) % 2 = 0 ∧
    (if (w + 1) % 65536 = 0 then (w + 1) % 65536 + 2 else (w + 1) % 65536) ≠ 0 ∧
    (if (w + 1) % 65536 = 0 then (w + 1) % 65536 + 2 else (w + 1) % 65536) < 65536 := by
  rcases eq_or_ne ((w + 1) % 65536) 0 with h0 | h0
  · rw [if_pos h0, h0]
    norm_num
  · rw [if_neg h0]
    omega

/-! ## Free-list chain lemmas -/

theorem chain_ne_nil {T : Type} {entries : List (Entry T)} {s : Nat} {l : List Nat}
    (h : Chain entries s l) : l ≠ [] := by
  cases h <;> simp

theorem chain_start_mem {T : Type} {entries : List (Entry T)} {s : Nat} {l : List Nat}
    (h : Chain entries s l) : s ∈ l := by
  cases h <;> simp

theorem chain_mem_lt {T : Type} {entries : List (Entry T)} {s : Nat} {l : List Nat}
    (h : Chain entries s l) : ∀ x ∈ l, x < entries.length := by
  induction h with
  | last a ha he =>
    intro x hx
    simp at hx
    subst hx
    exact ha
  | cons a b l2 ha he hc ih =>
    intro x hx
    rcases List.mem_cons.mp hx with rfl | hx2
    · exact ha
    · exact ih x hx2

theorem chain_set_notmem {T : Type} {entries : List (Entry T)} {s : Nat} {l : List Nat}
    (h : Chain entries s l) (i : Nat) (e : Entry T) (hi : i ∉ l) :
    Chain (entries.set i e) s l := by
  induction h with
  | last a ha he =>
    refine Chain.last a (by simpa using ha) ?_
    rw [getD_set_ne _ i a e default (fun hh => hi (by simp [hh]))]
    exact he
  | cons a b l2 ha he hc ih =>
    refine Chain.cons a b l2 (by simpa using ha) ?_
      (ih (fun hmem => hi (List.mem_cons_of_mem _ hmem)))
    rw [getD_set_ne _ i a e default (fun hh => hi (by simp [hh]))]
    exact he

theorem chain_append {T : Type} {entries : List (Entry T)} {s : Nat} {l : List Nat}
    (h : Chain entries s l) (l2 : List (Entry T)) : Chain (entries ++ l2) s l := by
  induction h with
  | last a ha he =>
    refine Chain.last a (by simp; omega) ?_
    rw [getD_append_left _ _ _ _ ha]
    exact he
  | cons a b l3 ha he hc ih =>
    refine Chain.cons a b l3 (by simp; omega) ?_ ih
    rw [getD_append_left _ _ _ _ ha]
    exact he

theorem chain_getLast {T : Type} {entries : List (Entry T)} {s : Nat} {l : List Nat}
    (h : Chain entries s l) :
    ∃ t, l.getLast? = some t ∧ (entries.getD t default).state = .EndOfFreeList := by
  induction h with
  | last a ha he => exact ⟨a, rfl, he⟩
  | cons a b l2 ha he hc ih =>
    rcases ih with ⟨t, ht, hte⟩
    rcases l2 with _ | ⟨x, l3⟩
    · exact absurd rfl (chain_ne_nil hc)
    · exact ⟨t, by rw [List.getLast?_cons_cons]; exact ht, hte⟩

theorem chain_eol_last {T : Type} {entries : List (Entry T)} {s : Nat} {l : List Nat}
    (h : Chain entries s l) :
    ∀ i ∈ l, (entries.getD i default).state = .EndOfFreeList → l.getLast? = some i := by
  induction h with
  | last a ha he =>
    intro i hi hie
    simp at hi
    subst hi
    rfl
  | cons a b l2 ha he hc ih =>
    intro i hi hie
    rcases List.mem_cons.mp hi with rfl | hi2
    · rw [he] at hie
      exact absurd hie (by simp)
    · have hlast := ih i hi2 hie
      rcases l2 with _ | ⟨x, l3⟩
      · exact absurd rfl (chain_ne_nil hc)
      · rw [List.getLast?_cons_cons]
        exact hlast

/-- Popping the head of a chain whose start links to `i`. -/
theorem chain_pop {T : Type} {entries : List (Entry T)} {s : Nat} {l : List Nat} {i : Nat}
    (hc : Chain entries s l) (hs : (entries.getD s default).state = .InFreeList i) :
    ∃ l2, l = s :: l2 ∧ Chain entries i l2 := by
  cases hc with
  | last a ha he =>
    rw [hs] at he
    exact absurd he (by simp)
  | cons a b l2 ha he hcc =>
    rw [hs] at he
    injection he with hib
    exact ⟨l2, rfl, by rwa [← hib] at hcc⟩

/-- The initial free list of a freshly constructed arena is a chain. -/
theorem chain_range {T : Type} (entries : List (Entry T)) (cap : Nat)
    (hlen : entries.length = cap)
    (hlink : ∀ i, i < cap - 1 → (entries.getD i default).state = .InFreeList (i + 1))
    (hlast : (entries.getD (cap - 1) default).state = .EndOfFreeList) :
    ∀ n j, j + n = cap → 0 < n → Chain entries j (List.range' j n) := by
  intro n
  induction n with
  | zero =>
    intro j hj h0
    omega
  | succ k ih =>
    intro j hj hpos
    rw [List.range'_succ]
    cases k with
    | zero =>
      have hj' : j = cap - 1 := by omega
      refine Chain.last j (by omega) ?_
      rw [hj']
      exact hlast
    | succ k2 =>
      exact Chain.cons j (j + 1) (List.range' (j + 1) (k2 + 1)) (by omega)
        (hlink j (by omega)) (ih (j + 1) (by omega) (by omega))

/-! ## Preservation of the arena invariant -/

theorem valid_pushFree {T : Type} :
    ∀ (k : Nat) (m : HandleMap T), Valid m → m.entries.length + k ≤ MAX_CAPACITY →
      Valid (m.pushFree k) := by
  intro k
  induction k with
  | zero => intro m hv _; exact hv
  | succ n ih =>
    intro m hv hcap
    rw [HandleMap.pushFree]
    have hlen16 : to_u16 m.entries.length = m.entries.length := by
      unfold to_u16
      rw [MAX_CAPACITY_eq] at hcap
      omega
    refine ih _ ?_ (by simp; omega)
    set e : Entry T := ⟨1, .InFreeList m.first_free⟩ with he
    have hL : (m.entries ++ [e]).length = m.entries.length + 1 := by simp
    rcases hv.freeList with ⟨l, hc, hnd, hcov, hlena⟩
    refine ⟨hv.idLt, by simp; omega, ?_, ?_, ?_⟩
    · intro i hi
      rw [hL] at hi
      rcases Nat.lt_or_ge i m.entries.length with hilt | hige
      · rw [getD_append_left _ _ _ _ hilt]
        exact hv.vers i hilt
      · have hieq : i = m.entries.length := by omega
        subst hieq
        rw [getD_append_self, he]
        exact ⟨by norm_num, by norm_num, by simp⟩
    · show m.num_entries = (m.entries ++ [e]).countP _
      rw [List.countP_append]
      have : [e].countP (fun en => en.state.is_occupied) = 0 := by simp [he]
      rw [this, Nat.add_zero]
      exact hv.numCount
    · refine ⟨m.entries.length :: l, ?_, ?_, ?_, ?_⟩
      · show Chain (m.entries ++ [e]) (to_u16 m.entries.length) _
        rw [hlen16]
        refine Chain.cons m.entries.length m.first_free l (by simp) ?_ (chain_append hc [e])
        rw [getD_append_self]
      · refine List.nodup_cons.mpr ⟨?_, hnd⟩
        intro hmem
        exact absurd (chain_mem_lt hc _ hmem) (by omega)
      · intro i hi
        rw [hL] at hi
        rcases Nat.lt_or_ge i m.entries.length with hilt | hige
        · rw [getD_append_left _ _ _ _ hilt]
          rw [hcov i hilt]
          constructor
          · intro hmem; exact List.mem_cons_of_mem _ hmem
          · intro hmem
            rcases List.mem_cons.mp hmem with hbad | hok
            · omega
            · exact hok
        · have hieq : i = m.entries.length := by omega
          subst hieq
          rw [getD_append_self]
          simp [he]
      · rw [hL]
        simp only [List.length_cons]
        omega

/-- Refined inversion for `ensure_capacity`: on success the appended-slot
count keeps the capacity within `MAX_CAPACITY`. -/
theorem ensure_cases_k {T : Type} (m : HandleMap T) (c : Nat) (m' : HandleMap T)
    (hcap : m.entries.length ≤ MAX_CAPACITY)
    (hm : m.ensure_capacity c = some m') :
    m' = m ∨ ∃ k, m' = m.pushFree k ∧ m.entries.length + k ≤ MAX_CAPACITY := by
  unfold HandleMap.ensure_capacity at hm
  split at hm
  · exact absurd hm (by simp)
  split at hm
  · exact absurd hm (by simp)
  split at hm
  · left; exact (Option.some.inj hm).symm
  · rcases hE : m.entries[m.first_free]? with _ | e <;> rw [hE] at hm
    · simp at hm
    · by_cases hocc : e.state.is_occupied = true
      · simp [hocc] at hm
      · simp only [Bool.not_eq_true] at hocc
        simp [hocc] at hm
        right
        refine ⟨_, hm.symm, ?_⟩
        have hmin : min (growCap c m.capacity) MAX_CAPACITY ≤ MAX_CAPACITY :=
          Nat.min_le_right _ _
        have hcc : m.capacity = m.entries.length := rfl
        omega

theorem valid_ensure {T : Type} (m : HandleMap T) (c : Nat) (m' : HandleMap T)
    (hv : Valid m) (hm : m.ensure_capacity c = some m') : Valid m' := by
  rcases ensure_cases_k m c m' hv.capLe hm with rfl | ⟨k, rfl, hk⟩
  · exact hv
  · exact valid_pushFree k m hv hk

theorem valid_insert {T : Type} (m : HandleMap T) (v : T) (m' : HandleMap T) (h : Handle)
    (hv : Valid m) (hm : m.insert v = some (m', h)) : Valid m' := by
  rcases HandleMap.insert_eq m v m' h hm with
    ⟨m1, entry, i, hens, hE, hst, hhid, hhver, hhidx, hm'⟩
  have hv1 : Valid m1 := valid_ensure m _ m1 hv hens
  have hffl : m1.first_free < m1.entries.length := lt_length_of_getElem? _ _ _ hE
  have hgd : m1.entries.getD m1.first_free default = entry := getD_eq_of_getElem? _ _ _ _ hE
  have hvff := hv1.vers m1.first_free hffl
  rw [hgd] at hvff
  have hodd : entry.version % 2 = 1 := by
    rcases hvff with ⟨_, _, hiff⟩
    rw [hst] at hiff
    simp at hiff
    omega
  have hbump := bump_facts entry.version hodd
  rw [← hhver] at hbump
  rcases hv1.freeList with ⟨l, hc, hnd, hcov, hlena⟩
  rcases chain_pop hc (by rw [hgd]; exact hst) with ⟨l2, hl2, hci⟩
  subst hl2
  have hffnot : m1.first_free ∉ l2 := (List.nodup_cons.mp hnd).1
  subst hm'
  refine ⟨hv1.idLt, by simpa using hv1.capLe, ?_, ?_, ?_⟩
  · intro j hj
    simp only [List.length_set] at hj
    rcases eq_or_ne j m1.first_free with rfl | hne
    · rw [getD_set_self _ _ _ _ hj]
      exact ⟨hbump.2.2, hbump.2.1, by simpa using hbump.1⟩
    · rw [getD_set_ne _ _ _ _ _ (by omega)]
      exact hv1.vers j hj
  · have hcnt := countP_flip_up m1.entries m1.first_free ⟨h.version, .Active v⟩ hffl
      (by rw [hgd, hst]; simp) (by simp)
    dsimp only []
    rw [hv1.numCount]
    exact hcnt.symm
  · refine ⟨l2, ?_, (List.nodup_cons.mp hnd).2, ?_, ?_⟩
    · exact chain_set_notmem hci m1.first_free _ hffnot
    · intro j hj
      simp only [List.length_set] at hj
      rcases eq_or_ne j m1.first_free with rfl | hne
      · rw [getD_set_self _ _ _ _ hj]
        simp
        exact hffnot
      · rw [getD_set_ne _ _ _ _ _ (by omega)]
        rw [hcov j hj]
        simp [hne]
    · simp only [List.length_set]
      simp only [List.length_cons] at hlena
      omega

theorem valid_delete {T : Type} (m : HandleMap T) (h : Handle) (m' : HandleMap T)
    (r : Except HandleError Unit) (hv : Valid m) (hm : m.delete h = some (m', r)) :
    Valid m' := by
  rcases HandleMap.delete_eq m h (m', r) hm with ⟨e, _, hp⟩ | ⟨hc, hocc, hp⟩
  · rw [Prod.mk.injEq] at hp
    rw [hp.1]
    exact hv
  · rw [Prod.mk.injEq] at hp
    rcases (HandleMap.check_handle_ok m h h.index).mp hc with ⟨_, hid, hlt, hverm⟩
    have hvh := hv.vers h.index hlt
    have heven : (m.entries.getD h.index default).version % 2 = 0 := by
      rcases hvh with ⟨_, _, hiff⟩
      exact hiff.mpr hocc
    have hterm : ((m.entries.getD h.index default).version + 1) % 65536 =
        (m.entries.getD h.index default).version + 1 := by
      rcases hvh with ⟨hlt16, hne0, _⟩
      omega
    have hnum1 : 1 ≤ m.num_entries := by
      rw [hv.numCount]
      exact countP_pos_of_getD _ m.entries h.index default hlt hocc
    rcases hv.freeList with ⟨l, hcn, hnd, hcov, hlena⟩
    have hnotmem : h.index ∉ l := by
      intro hmem
      have := (hcov h.index hlt).mpr hmem
      rw [hocc] at this
      exact absurd this (by simp)
    rw [hp.1]
    refine ⟨hv.idLt, by simpa using hv.capLe, ?_, ?_, ?_⟩
    · intro j hj
      simp only [List.length_set] at hj
      rcases eq_or_ne j h.index with rfl | hne
      · rw [getD_set_self _ _ _ _ hj]
        rcases hvh with ⟨hlt16, hne0, _⟩
        refine ⟨?_, ?_, ?_⟩
        · show ((m.entries.getD h.index default).version + 1) % 65536 < 65536
          omega
        · show ((m.entries.getD h.index default).version + 1) % 65536 ≠ 0
          omega
        · show ((m.entries.getD h.index default).version + 1) % 65536 % 2 = 0 ↔
            (EntryState.InFreeList m.first_free : EntryState T).is_occupied = true
          rw [is_occupied_ifl]
          simp only [Bool.false_eq_true, iff_false]
          omega
      · rw [getD_set_ne _ _ _ _ _ (by omega)]
        exact hv.vers j hj
    · have hcnt := countP_flip_down m.entries h.index
        ⟨((m.entries.getD h.index default).version + 1) % 65536, .InFreeList m.first_free⟩
        hlt hocc (by simp)
      dsimp only []
      rw [hv.numCount]
      omega
    · refine ⟨h.index :: l, ?_, List.nodup_cons.mpr ⟨hnotmem, hnd⟩, ?_, ?_⟩
      · refine Chain.cons h.index m.first_free l (by simpa using hlt) ?_
          (chain_set_notmem hcn h.index _ hnotmem)
        rw [getD_set_self _ _ _ _ (by simpa using hlt)]
      · intro j hj
        simp only [List.length_set] at hj
        rcases eq_or_ne j h.index with rfl | hne
        · rw [getD_set_self _ _ _ _ hj]
          simp
        · rw [getD_set_ne _ _ _ _ _ (by omega)]
          rw [hcov j hj]
          simp [hne]
      · simp only [List.length_set, List.length_cons]
        omega

theorem valid_new {T : Type} (id request : Nat) (m : HandleMap T)
    (hm : HandleMap.new_with_capacity id request = some m) : Valid m := by
  unfold HandleMap.new_with_capacity at hm
  split at hm
  case isFalse => exact absurd hm (by simp)
  case isTrue hreq =>
    dsimp only [] at hm
    rw [MAX_CAPACITY_eq] at hreq
    set cap := max request MIN_CAPACITY with hcapdef
    have hcap4 : 4 ≤ cap := le_max_right _ _
    have hcaple : cap ≤ 32767 := by
      rw [hcapdef]
      unfold MIN_CAPACITY
      omega
    set es : List (Entry T) :=
      (List.range (cap - 1)).map (fun i => ⟨1, .InFreeList (to_u16 (i + 1))⟩)
        ++ [⟨1, .EndOfFreeList⟩] with hes
    have hlen : es.length = cap := by
      rw [hes]
      simp
      omega
    have hgetlt : ∀ i, i < cap - 1 → es.getD i default = ⟨1, .InFreeList (i + 1)⟩ := by
      intro i hi
      rw [hes, getD_append_left _ _ _ _ (by simpa using hi)]
      have : ((List.range (cap - 1)).map
          (fun i => (⟨1, .InFreeList (to_u16 (i + 1))⟩ : Entry T)))[i]? =
          some ⟨1, .InFreeList (to_u16 (i + 1))⟩ := by
        rw [List.getElem?_map, List.getElem?_range hi]
        rfl
      rw [getD_eq_of_getElem? _ _ _ _ this]
      have h16 : to_u16 (i + 1) = i + 1 := by
        unfold to_u16
        omega
      rw [h16]
    have hgetlast : es.getD (cap - 1) default = ⟨1, .EndOfFreeList⟩ := by
      rw [hes, List.getD_eq_getElem?_getD, List.getElem?_append_right (by simp)]
      simp
    have hm' : m = ⟨id % 65536, 0, 0, es⟩ := by
      simp only [Option.some.injEq] at hm
      rw [← hm]
    subst hm'
    refine ⟨by simp; omega, ?_, ?_, ?_, ?_⟩
    · show es.length ≤ MAX_CAPACITY
      rw [MAX_CAPACITY_eq, hlen]
      exact hcaple
    · intro i hi
      rw [hlen] at hi
      rcases Nat.lt_or_ge i (cap - 1) with hilt | hige
      · rw [hgetlt i hilt]
        exact ⟨by norm_num, by norm_num, by simp⟩
      · have : i = cap - 1 := by omega
        subst this
        rw [hgetlast]
        exact ⟨by norm_num, by norm_num, by simp⟩
    · show (0:Nat) = es.countP _
      have : ∀ e ∈ es, ¬ (e.state.is_occupied = true) := by
        intro e he
        rw [hes] at he
        rcases List.mem_append.mp he with hmm | hmm
        · rcases List.mem_map.mp hmm with ⟨j, _, hj⟩
          rw [← hj]
          simp
        · simp at hmm
          rw [hmm]
          simp
      rw [List.countP_eq_zero.mpr this]
    · refine ⟨List.range' 0 cap, ?_, List.nodup_range' _ _, ?_, ?_⟩
      · show Chain es 0 _
        refine chain_range es cap hlen
          (fun i hi => by rw [hgetlt i hi]) (by rw [hgetlast]) cap 0 (by omega) (by omega)
      · intro i hi
        rw [hlen] at hi
        constructor
        · intro _
          simp [List.mem_range'_1]
          omega
        · intro _
          rcases Nat.lt_or_ge i (cap - 1) with hilt | hige
          · rw [hgetlt i hilt]
            simp
          · have : i = cap - 1 := by omega
            subst this
            rw [hgetlast]
            simp
      · simp [hlen]

theorem reachable_valid {T : Type} (m : HandleMap T) (hr : Reachable m) : Valid m := by
  induction hr with
  | construct id request m hm => exact valid_new id request m hm
  | insert m v m' h _ hm ih => exact valid_insert m v m' h ih hm
  | delete m h m' r _ hm ih => exact valid_delete m h m' r ih hm
  | grow m c m' _ hm ih => exact valid_ensure m c m' ih hm

/-! ## Liveness and staleness of one handle along operation sequences -/

theorem handle_eq (h1 h2 : Handle) (e1 : h1.map_id = h2.map_id)
    (e2 : h1.version = h2.version) (e3 : h1.index = h2.index) : h1 = h2 := by
  cases h1
  cases h2
  simp only [Handle.mk.injEq]
  exact ⟨e1, e2, e3⟩

theorem live_check (m : HandleMap Nat) (h : Handle) (hl : Live m h) :
    m.check_handle h = .ok h.index :=
  (HandleMap.check_handle_ok m h h.index).mpr ⟨rfl, hl.idEq, hl.idx, hl.ver⟩

theorem live_get (m : HandleMap Nat) (h : Handle) (hl : Live m h) :
    ∃ t, m.get h = some (.ok t) := by
  rcases occupied_of_state _ hl.act with ⟨t, ht⟩
  refine ⟨t, ?_⟩
  have hc := live_check m h hl
  simp only [List.getD_eq_getElem?_getD] at ht
  simp [HandleMap.get, hc, ht]

theorem live_get_mut (m : HandleMap Nat) (h : Handle) (hl : Live m h) :
    ∃ t, m.get_mut h = some (m, .ok t) := by
  rcases occupied_of_state _ hl.act with ⟨t, ht⟩
  refine ⟨t, ?_⟩
  have hc := live_check m h hl
  simp only [List.getD_eq_getElem?_getD] at ht
  simp [HandleMap.get_mut, hc, ht]

theorem live_delete_eq (m : HandleMap Nat) (h : Handle) (hl : Live m h) :
    m.delete h = some ({ m with
      entries := m.entries.set h.index ⟨(h.version + 1) % 65536, .InFreeList m.first_free⟩,
      num_entries := m.num_entries - 1,
      first_free := h.index }, .ok ()) := by
  have hc := live_check m h hl
  have hocc := hl.act
  have hver := hl.ver
  simp only [List.getD_eq_getElem?_getD] at hocc hver
  simp [HandleMap.delete, hc, hocc, hver]

theorem live_delete (m : HandleMap Nat) (h : Handle) (hl : Live m h) :
    ∃ m2, m.delete h = some (m2, .ok ()) ∧ Stale m2 h 1 := by
  refine ⟨_, live_delete_eq m h hl, ?_, ?_, ?_, ?_⟩
  · exact hl.idEq
  · simpa using hl.idx
  · rw [getD_set_self _ _ _ _ hl.idx]
  · exact hl.vlt

theorem insert_live (m : HandleMap Nat) (v : Nat) (m' : HandleMap Nat) (h : Handle)
    (hm : m.insert v = some (m', h)) : Live m' h := by
  rcases HandleMap.insert_eq m v m' h hm with
    ⟨m1, entry, i, hens, hE, hst, hhid, hhver, hhidx, hm'⟩
  have hffl : m1.first_free < m1.entries.length := lt_length_of_getElem? _ _ _ hE
  subst hm'
  refine ⟨hhid, ?_, ?_, ?_, ?_⟩
  · rw [hhidx]
    simpa using hffl
  · rw [hhidx, getD_set_self _ _ _ _ hffl]
  · rw [hhidx, getD_set_self _ _ _ _ hffl]
    simp
  · rw [hhver]
    rcases eq_or_ne ((entry.version + 1) % 65536) 0 with h0 | h0
    · rw [if_pos h0, h0]
      norm_num
    · rw [if_neg h0]
      omega

theorem ensure_live (m m1 : HandleMap Nat) (c : Nat) (h : Handle)
    (hl : Live m h) (hens : m.ensure_capacity c = some m1) : Live m1 h :=
  ⟨hl.idEq.trans (HandleMap.ensure_id m c m1 hens).symm,
   Nat.lt_of_lt_of_le hl.idx (HandleMap.ensure_len_ge m c m1 hens),
   by rw [HandleMap.ensure_getD m c m1 hens h.index hl.idx]; exact hl.ver,
   by rw [HandleMap.ensure_getD m c m1 hens h.index hl.idx]; exact hl.act, hl.vlt⟩

theorem step_live (m m' : HandleMap Nat) (op : Op) (h : Handle) (hl : Live m h)
    (hs : step m op = some m') (hne : op ≠ Op.del h) : Live m' h := by
  cases op with
  | ins v =>
    simp only [step] at hs
    rcases hi : m.insert v with _ | ⟨m2, h2⟩ <;> rw [hi] at hs
    · simp at hs
    · simp at hs
      subst hs
      rcases HandleMap.insert_eq m v m2 h2 hi with
        ⟨m1, entry, i, hens, hE, hst, _, _, _, hm2⟩
      have hl1 : Live m1 h := ensure_live m m1 _ h hl hens
      have hffne : m1.first_free ≠ h.index := by
        intro heq
        have hgd : m1.entries.getD m1.first_free default = entry :=
          getD_eq_of_getElem? _ _ _ _ hE
        rw [heq] at hgd
        have hact := hl1.act
        rw [hgd, hst] at hact
        simp at hact
      subst hm2
      exact ⟨hl1.idEq, by simpa using hl1.idx,
        by rw [getD_set_ne _ _ _ _ _ hffne]; exact hl1.ver,
        by rw [getD_set_ne _ _ _ _ _ hffne]; exact hl1.act, hl1.vlt⟩
  | del h2 =>
    simp only [step] at hs
    rcases hd : m.delete h2 with _ | ⟨m2, r⟩ <;> rw [hd] at hs
    · simp at hs
    · simp at hs
      subst hs
      rcases HandleMap.delete_eq m h2 (m2, r) hd with ⟨e, hc, hp⟩ | ⟨hc, hocc, hp⟩
      · rw [Prod.mk.injEq] at hp
        rw [hp.1]
        exact hl
      · rw [Prod.mk.injEq] at hp
        rcases (HandleMap.check_handle_ok m h2 h2.index).mp hc with ⟨_, hid2, hlt2, hver2⟩
        have hne2 : h2.index ≠ h.index := by
          intro heq
          apply hne
          have hv2 : h2.version = h.version := by rw [← hver2, heq, hl.ver]
          have hid : h2.map_id = h.map_id := by rw [hid2, hl.idEq]
          rw [handle_eq h2 h hid hv2 heq]
        rw [hp.1]
        exact ⟨hl.idEq, by simpa using hl.idx,
          by rw [getD_set_ne _ _ _ _ _ hne2]; exact hl.ver,
          by rw [getD_set_ne _ _ _ _ _ hne2]; exact hl.act, hl.vlt⟩

theorem stale_check (m : HandleMap Nat) (h : Handle) (s : Nat) (hst : Stale m h s)
    (h1 : 1 ≤ s) (h2 : s ≤ 65535) : m.check_handle h = .error .StaleVersion := by
  rw [HandleMap.check_handle_error]
  right; right
  refine ⟨rfl, hst.idEq, hst.idx, ?_⟩
  rw [hst.ver]
  have := hst.vlt
  omega

theorem stale_results (m : HandleMap Nat) (h : Handle) (s : Nat) (hst : Stale m h s)
    (h1 : 1 ≤ s) (h2 : s ≤ 65535) :
    m.check_handle h = .error .StaleVersion ∧
    m.get h = some (.error .StaleVersion) ∧
    m.get_mut h = some (m, .error .StaleVersion) ∧
    m.delete h = some (m, .error .StaleVersion) := by
  have hc := stale_check m h s hst h1 h2
  exact ⟨hc, HandleMap.get_error _ _ _ hc, HandleMap.get_mut_error _ _ _ hc,
    HandleMap.delete_error _ _ _ hc⟩

theorem ensure_stale (m m1 : HandleMap Nat) (c : Nat) (h : Handle) (s : Nat)
    (hst : Stale m h s) (hens : m.ensure_capacity c = some m1) : Stale m1 h s :=
  ⟨hst.idEq.trans (HandleMap.ensure_id m c m1 hens).symm,
   Nat.lt_of_lt_of_le hst.idx (HandleMap.ensure_len_ge m c m1 hens),
   by rw [HandleMap.ensure_getD m c m1 hens h.index hst.idx]; exact hst.ver, hst.vlt⟩

theorem step_stale (m m' : HandleMap Nat) (op : Op) (h : Handle) (s : Nat)
    (hst : Stale m h s) (hs : step m op = some m') :
    ∃ s2, Stale m' h s2 ∧ s ≤ s2 ∧ s2 ≤ s + 3 := by
  cases op with
  | ins v =>
    simp only [step] at hs
    rcases hi : m.insert v with _ | ⟨m2, h2⟩ <;> rw [hi] at hs
    · simp at hs
    · simp at hs
      subst hs
      rcases HandleMap.insert_eq m v m2 h2 hi with
        ⟨m1, entry, i, hens, hE, hstt, _, hh2ver, _, hm2⟩
      have hst1 : Stale m1 h s := ensure_stale m m1 _ h s hst hens
      have hgd : m1.entries.getD m1.first_free default = entry :=
        getD_eq_of_getElem? _ _ _ _ hE
      have hffl : m1.first_free < m1.entries.length := lt_length_of_getElem? _ _ _ hE
      subst hm2
      rcases eq_or_ne m1.first_free h.index with heq | hne
      · have hever : entry.version = (h.version + s) % 65536 := by
          rw [← hgd, heq]
          exact hst1.ver
        rcases eq_or_ne ((entry.version + 1) % 65536) 0 with h0 | h0
        · refine ⟨s + 3, ⟨hst1.idEq, by simpa using hst1.idx, ?_, hst1.vlt⟩,
            by omega, by omega⟩
          rw [← heq, getD_set_self _ _ _ _ hffl]
          show h2.version = (h.version + (s + 3)) % 65536
          rw [hh2ver, if_pos h0]
          rw [hever] at h0
          omega
        · refine ⟨s + 1, ⟨hst1.idEq, by simpa using hst1.idx, ?_, hst1.vlt⟩,
            by omega, by omega⟩
          rw [← heq, getD_set_self _ _ _ _ hffl]
          show h2.version = (h.version + (s + 1)) % 65536
          rw [hh2ver, if_neg h0, hever]
          omega
      · refine ⟨s, ⟨hst1.idEq, by simpa using hst1.idx, ?_, hst1.vlt⟩, Nat.le_refl s,
          by omega⟩
        rw [getD_set_ne _ _ _ _ _ hne]
        exact hst1.ver
  | del h2 =>
    simp only [step] at hs
    rcases hd : m.delete h2 with _ | ⟨m2, r⟩ <;> rw [hd] at hs
    · simp at hs
    · simp at hs
      subst hs
      rcases HandleMap.delete_eq m h2 (m2, r) hd with ⟨e, hc, hp⟩ | ⟨hc, hocc, hp⟩
      · rw [Prod.mk.injEq] at hp
        rw [hp.1]
        exact ⟨s, hst, Nat.le_refl s, by omega⟩
      · rw [Prod.mk.injEq] at hp
        rcases (HandleMap.check_handle_ok m h2 h2.index).mp hc with ⟨_, hid2, hlt2, hver2⟩
        rw [hp.1]
        rcases eq_or_ne h2.index h.index with heq | hne
        · refine ⟨s + 1, ⟨hst.idEq, by simpa using hst.idx, ?_, hst.vlt⟩,
            by omega, by omega⟩
          rw [heq, getD_set_self _ _ _ _ hst.idx]
          show ((m.entries.getD h.index default).version + 1) % 65536 =
            (h.version + (s + 1)) % 65536
          rw [hst.ver]
          omega
        · refine ⟨s, ⟨hst.idEq, by simpa using hst.idx, ?_, hst.vlt⟩, Nat.le_refl s,
            by omega⟩
          rw [getD_set_ne _ _ _ _ _ hne]
          exact hst.ver

theorem runFrom_cons (m : HandleMap Nat) (op : Op) (ops : List Op) :
    runFrom m (op :: ops) = (step m op).bind (fun m1 => runFrom m1 ops) := by
  cases hstep : step m op with
  | none => simp [runFrom, hstep]
  | some m1 => simp [runFrom, hstep]

theorem runFrom_append (xs ys : List Op) : ∀ m : HandleMap Nat,
    runFrom m (xs ++ ys) = (runFrom m xs).bind (fun m1 => runFrom m1 ys) := by
  induction xs with
  | nil => intro m; simp [runFrom]
  | cons op xs ih =>
    intro m
    rw [List.cons_append, runFrom_cons, runFrom_cons]
    cases step m op with
    | none => rfl
    | some m1 => simpa using ih m1

theorem runFrom_cons_some (m m1 : HandleMap Nat) (op : Op) (ops : List Op)
    (h : step m op = some m1) : runFrom m (op :: ops) = runFrom m1 ops := by
  rw [runFrom_cons, h]
  rfl

theorem runFrom_append_some (xs ys : List Op) (m m1 : HandleMap Nat)
    (h : runFrom m xs = some m1) : runFrom m (xs ++ ys) = runFrom m1 ys := by
  rw [runFrom_append, h]
  rfl

theorem runFrom_live : ∀ (xs : List Op) (m m' : HandleMap Nat) (h : Handle),
    Live m h → runFrom m xs = some m' → Op.del h ∉ xs → Live m' h := by
  intro xs
  induction xs with
  | nil =>
    intro m m' h hl hr _
    simp [runFrom] at hr
    rwa [← hr]
  | cons op xs ih =>
    intro m m' h hl hr hnot
    unfold runFrom at hr
    cases hstep : step m op with
    | none => rw [hstep] at hr; simp at hr
    | some m1 =>
      rw [hstep] at hr
      have hne : op ≠ Op.del h := fun heq => hnot (by rw [heq]; exact List.mem_cons_self _ _)
      exact ih m1 m' h (step_live m m1 op h hl hstep hne) hr
        (fun hmem => hnot (List.mem_cons_of_mem _ hmem))

theorem runFrom_stale : ∀ (xs : List Op) (m m' : HandleMap Nat) (h : Handle) (s : Nat),
    Stale m h s → runFrom m xs = some m' →
    ∃ s2, Stale m' h s2 ∧ s ≤ s2 ∧ s2 ≤ s + 3 * xs.length := by
  intro xs
  induction xs with
  | nil =>
    intro m m' h s hst hr
    simp [runFrom] at hr
    exact ⟨s, by rwa [← hr], Nat.le_refl s, by simp⟩
  | cons op xs ih =>
    intro m m' h s hst hr
    unfold runFrom at hr
    cases hstep : step m op with
    | none => rw [hstep] at hr; simp at hr
    | some m1 =>
      rw [hstep] at hr
      rcases step_stale m m1 op h s hst hstep with ⟨s1, hst1, hle1, hle2⟩
      rcases ih m1 m' h s1 hst1 hr with ⟨s2, hst2, hle3, hle4⟩
      refine ⟨s2, hst2, by omega, ?_⟩
      simp only [List.length_cons]
      omega

/-! ## Unfolding lemmas for the growth loop -/

theorem growCap_gt (c n : Nat) (h0 : n ≠ 0) (h : c < n) : growCap c n = n := by
  unfold growCap
  rw [if_neg h0, if_neg (by omega)]

theorem growCap_le2 (c n : Nat) (h0 : n ≠ 0) (h : n ≤ c) :
    growCap c n = growCap c (n * 2) := by
  conv_lhs => rw [growCap.eq_def]
  rw [if_neg h0, if_pos h]

theorem growCap_4_4 : growCap 4 4 = 8 := by
  rw [growCap_le2 4 4 (by norm_num) (by norm_num)]
  norm_num
  exact growCap_gt 4 8 (by norm_num) (by norm_num)

/-- The doubling loop returns the first power-of-two multiple of the
starting capacity that strictly exceeds the requested minimum. -/
theorem growCap_spec : ∀ (d c n : Nat), 1 ≤ n → c + 1 - n ≤ d →
    ∃ k, growCap c n = n * 2 ^ k ∧ c < n * 2 ^ k := by
  intro d
  induction d with
  | zero =>
    intro c n h1 hd
    have hcn : c < n := by omega
    exact ⟨0, by rw [growCap_gt c n (by omega) hcn]; ring, by simpa using hcn⟩
  | succ d ih =>
    intro c n h1 hd
    rcases Nat.lt_or_ge c n with hcn | hcn
    · exact ⟨0, by rw [growCap_gt c n (by omega) hcn]; ring, by simpa using hcn⟩
    · rw [growCap_le2 c n (by omega) hcn]
      rcases ih c (n * 2) (by omega) (by omega) with ⟨k, hk1, hk2⟩
      refine ⟨k + 1, ?_, ?_⟩
      · rw [hk1]; ring
      · calc c < n * 2 * 2 ^ k := hk2
          _ = n * 2 ^ (k + 1) := by ring

theorem growCap_pow (c n : Nat) (h1 : 1 ≤ n) :
    ∃ k, growCap c n = n * 2 ^ k ∧ c < n * 2 ^ k :=
  growCap_spec (c + 1 - n) c n h1 (Nat.le_refl _)

/-! ## Concrete runs: slot reuse, version wrap-around, growth to 7 slots -/

/-- Fast path of `insert`: no growth needed and the popped slot's bumped
version does not hit the zero-skip. -/
theorem insert_pop {T : Type} (m : HandleMap T) (v : T) (entry : Entry T) (i : Nat)
    (hens : m.ensure_capacity (m.num_entries + 1) = some m)
    (hE : m.entries[m.first_free]? = some entry)
    (hst : entry.state = .InFreeList i) (hv : (entry.version + 1) % 65536 ≠ 0) :
    m.insert v = some
      ({ m with entries := m.entries.set m.first_free ⟨(entry.version + 1) % 65536, .Active v⟩
              , first_free := i
              , num_entries := m.num_entries + 1 },
       ⟨m.id, (entry.version + 1) % 65536, m.first_free⟩) := by
  have hens' : m.ensure_capacity (m.len + 1) = some m := hens
  simp [HandleMap.insert, hens', hE, hst, hv]

theorem ensure_noop {T : Type} (m : HandleMap T) (c : Nat)
    (h1 : m.num_entries ≠ m.entries.length) (h2 : c ≤ MAX_CAPACITY)
    (h3 : c < m.entries.length) : m.ensure_capacity c = some m := by
  unfold HandleMap.ensure_capacity
  rw [if_neg (show ¬(m.len = m.capacity) from h1), if_neg (show ¬(MAX_CAPACITY < c) by omega),
    if_pos (show c < m.capacity from h3)]

theorem cex_ins_step (j : Nat) (hj : j ≤ 32765) :
    (cexState j).insert 0 = some (cexMid j, ⟨0, 4 + 2 * j, 0⟩) := by
  have hens : (cexState j).ensure_capacity ((cexState j).num_entries + 1) =
      some (cexState j) :=
    ensure_noop _ _ (by simp [cexState]) (by rw [MAX_CAPACITY_eq]; simp [cexState])
      (by simp [cexState])
  have hE : (cexState j).entries[(cexState j).first_free]? =
      some ⟨3 + 2 * j, .InFreeList 1⟩ := by
    simp [cexState]
  have hpop := insert_pop (cexState j) 0 ⟨3 + 2 * j, .InFreeList 1⟩ 1 hens hE rfl
    (show (3 + 2 * j + 1) % 65536 ≠ 0 by omega)
  rw [hpop]
  have hX : (3 + 2 * j + 1) % 65536 = 4 + 2 * j := by omega
  simp [cexState, cexMid, hX]

theorem cex_del_step (j : Nat) (hj : j ≤ 32765) :
    (cexMid j).delete ⟨0, 4 + 2 * j, 0⟩ = some (cexState (j + 1), .ok ()) := by
  have hlive : Live (cexMid j) ⟨0, 4 + 2 * j, 0⟩ := by
    refine ⟨rfl, by simp [cexMid], by simp [cexMid], by simp [cexMid],
      show 4 + 2 * j < 65536 by omega⟩
  rw [live_delete_eq _ _ hlive]
  have hX : (4 + 2 * j + 1) % 65536 = 3 + 2 * (j + 1) := by omega
  simp [cexMid, cexState, hX]

theorem runCycles : ∀ (n j : Nat), j + n ≤ 32766 →
    runFrom (cexState j) (cycleOpsFrom j n) = some (cexState (j + n)) := by
  intro n
  induction n with
  | zero =>
    intro j hj
    simp [cycleOpsFrom, runFrom]
  | succ k ih =>
    intro j hj
    have hij : j ≤ 32765 := by omega
    have hs1 : step (cexState j) (Op.ins 0) = some (cexMid j) := by
      simp [step, cex_ins_step j hij]
    have hs2 : step (cexMid j) (Op.del ⟨0, 4 + 2 * j, 0⟩) = some (cexState (j + 1)) := by
      simp [step, cex_del_step j hij]
    rw [cycleOpsFrom, runFrom_cons, hs1]
    show runFrom (cexMid j) (Op.del ⟨0, 4 + 2 * j, 0⟩ :: cycleOpsFrom (j + 1) k) = _
    rw [runFrom_cons, hs2]
    show runFrom (cexState (j + 1)) (cycleOpsFrom (j + 1) k) = _
    rw [ih (j + 1) (by omega)]
    have harith : j + 1 + k = j + (k + 1) := by omega
    rw [harith]

theorem cex_run : runFrom m2c cexOps = some cexFinal := by
  have hd0 : m2c.delete h0c = some (cexState 0, .ok ()) := by decide
  have hs0 : step m2c (Op.del h0c) = some (cexState 0) := by simp [step, hd0]
  have hfi : (cexState 32766).insert 0 = some (cexFinal, ⟨0, 2, 0⟩) := by decide
  have hsf : step (cexState 32766) (Op.ins 0) = some cexFinal := by simp [step, hfi]
  have hrc : runFrom (cexState 0) (cycleOpsFrom 0 32766) = some (cexState 32766) :=
    (runCycles 32766 0 (by omega)).trans
      (congrArg some (congrArg cexState (Nat.zero_add 32766)))
  calc runFrom m2c cexOps
      = runFrom m2c (Op.del h0c :: (cycleOpsFrom 0 32766 ++ [Op.ins 0])) := rfl
    _ = runFrom (cexState 0) (cycleOpsFrom 0 32766 ++ [Op.ins 0]) :=
        runFrom_cons_some m2c (cexState 0) (Op.del h0c)
          (cycleOpsFrom 0 32766 ++ [Op.ins 0]) hs0
    _ = runFrom (cexState 32766) [Op.ins 0] :=
        runFrom_append_some (cycleOpsFrom 0 32766) [Op.ins 0]
          (cexState 0) (cexState 32766) hrc
    _ = runFrom cexFinal [] :=
        runFrom_cons_some (cexState 32766) cexFinal (Op.ins 0) [] hsf
    _ = some cexFinal := rfl

theorem ensure_fresh0 : fresh0.ensure_capacity 4 = some c3grown := by
  have hgc : growCap 4 fresh0.capacity = 8 := growCap_4_4
  unfold HandleMap.ensure_capacity
  rw [hgc]
  decide

theorem ensure_c3m3 : c3m3.ensure_capacity 4 = some c3m3g := by
  have hgc : growCap 4 c3m3.capacity = 8 := growCap_4_4
  unfold HandleMap.ensure_capacity
  rw [hgc]
  decide

theorem ins4_c3 : c3m3.insert 3 = some (c3m4, ⟨0, 2, 6⟩) := by
  have he : c3m3.ensure_capacity (c3m3.len + 1) = some c3m3g := ensure_c3m3
  unfold HandleMap.insert
  rw [he]
  decide

theorem c3_run : runFrom fresh0 [Op.ins 0, Op.ins 1, Op.ins 2, Op.ins 3] = some c3m4 := by
  have h3 : runFrom fresh0 [Op.ins 0, Op.ins 1, Op.ins 2] = some c3m3 := by decide
  have hstep4 : step c3m3 (Op.ins 3) = some c3m4 := by simp [step, ins4_c3]
  have hsplit : [Op.ins 0, Op.ins 1, Op.ins 2, Op.ins 3] =
      [Op.ins 0, Op.ins 1, Op.ins 2] ++ [Op.ins 3] := rfl
  rw [hsplit, runFrom_append, h3]
  show runFrom c3m3 [Op.ins 3] = _
  rw [runFrom_cons, hstep4]
  rfl

/-! ## Claim C1 -/

/-- C1 (amended): along an arbitrary operation sequence after an insert
returned handle `h`, the handle validates — `check_handle`, `get`,
`get_mut` and `delete` all succeed — at every point until the first
(successful) delete presenting `h`; after that delete, every
`check_handle`/`get`/`get_mut`/`delete` presenting `h` fails with
`StaleVersion` for at least the next 21844 operations (each operation
advances the slot's version by at most 3, so the 16-bit counter cannot
have wrapped back), even after the slot has been reused by later inserts.
The unbounded form of the claim is false: see the counterexample, where
the version counter wraps. -/
theorem c1_handle_lifecycle (m1 m2 m3 : HandleMap Nat) (v : Nat) (h : Handle)
    (xs : List Op) (hins : m1.insert v = some (m2, h))
    (hrun : runFrom m2 xs = some m3) :
    (Op.del h ∉ xs →
      m3.check_handle h = .ok h.index ∧
      (∃ t, m3.get h = some (.ok t)) ∧
      (∃ t, m3.get_mut h = some (m3, .ok t)) ∧
      (∃ m4, m3.delete h = some (m4, .ok ()))) ∧
    (∀ ys zs, xs = ys ++ Op.del h :: zs → Op.del h ∉ ys → zs.length ≤ 21844 →
      m3.check_handle h = .error .StaleVersion ∧
      m3.get h = some (.error .StaleVersion) ∧
      m3.get_mut h = some (m3, .error .StaleVersion) ∧
      m3.delete h = some (m3, .error .StaleVersion)) := by
  have hlive2 : Live m2 h := insert_live m1 v m2 h hins
  constructor
  · intro hnot
    have hl3 : Live m3 h := runFrom_live xs m2 m3 h hlive2 hrun hnot
    refine ⟨live_check m3 h hl3, live_get m3 h hl3, live_get_mut m3 h hl3, ?_⟩
    rcases live_delete m3 h hl3 with ⟨m4, hd, _⟩
    exact ⟨m4, hd⟩
  · intro ys zs hsplit hnotys hlen
    subst hsplit
    rw [runFrom_append] at hrun
    rcases hys : runFrom m2 ys with _ | my <;> rw [hys] at hrun
    · simp at hrun
    simp only [Option.some_bind] at hrun
    have hlmy : Live my h := runFrom_live ys m2 my h hlive2 hys hnotys
    rw [runFrom_cons] at hrun
    have hsd : step my (Op.del h) = some { my with
        entries := my.entries.set h.index ⟨(h.version + 1) % 65536, .InFreeList my.first_free⟩,
        num_entries := my.num_entries - 1, first_free := h.index } := by
      simp [step, live_delete_eq my h hlmy]
    rw [hsd] at hrun
    simp only [Option.some_bind] at hrun
    have hstale : Stale { my with
        entries := my.entries.set h.index ⟨(h.version + 1) % 65536, .InFreeList my.first_free⟩,
        num_entries := my.num_entries - 1, first_free := h.index } h 1 :=
      ⟨hlmy.idEq, by simpa using hlmy.idx, by rw [getD_set_self _ _ _ _ hlmy.idx], hlmy.vlt⟩
    rcases runFrom_stale zs _ m3 h 1 hstale hrun with ⟨s2, hst2, hge, hle⟩
    exact stale_results m3 h s2 hst2 (by omega) (by omega)

/-- C1 counterexample: starting from a fresh arena, insert a value (handle
`h0c`, version 2 at slot 0), delete it, run 32766 insert/delete pairs on
slot 0 and one further insert. The slot's 16-bit version wraps all the way
back to 2, and the long-deleted handle `h0c` validates again (`get`
succeeds and returns the new value), contradicting the claim that after
its matching delete every use of the handle fails with `StaleVersion`. -/
theorem c1_counterexample :
    fresh0.insert 42 = some (m2c, h0c) ∧
    cexOps = [] ++ Op.del h0c :: (cycleOpsFrom 0 32766 ++ [Op.ins 0]) ∧
    Op.del h0c ∉ ([] : List Op) ∧
    runFrom m2c cexOps = some cexFinal ∧
    cexFinal.check_handle h0c = .ok 0 ∧
    cexFinal.get h0c = some (.ok 0) :=
  ⟨by decide, rfl, by simp, cex_run, by decide, by decide⟩

/-- C1 witness: the amended theorem applied to the concrete one-delete
sequence. -/
theorem c1_handle_lifecycle_witness :
    fresh0.insert 42 = some (m2c, h0c) ∧
    runFrom m2c [Op.del h0c] = some (cexState 0) ∧
    (cexState 0).check_handle h0c = .error .StaleVersion ∧
    (cexState 0).get h0c = some (.error .StaleVersion) := by
  have h1 : fresh0.insert 42 = some (m2c, h0c) := by decide
  have h2 : runFrom m2c [Op.del h0c] = some (cexState 0) := by decide
  have hmain := (c1_handle_lifecycle fresh0 m2c (cexState 0) 42 h0c [Op.del h0c] h1 h2).2
    [] [] rfl (by simp) (by norm_num)
  exact ⟨h1, h2, hmain.1, hmain.2.1⟩

/-! ## Claim C2 -/

/-- C2: for every handle ever produced by `insert` (on any reachable
arena), `from_u64 (into_u64 h)` succeeds and returns a handle structurally
equal to `h`. -/
theorem c2_decode_encode {T : Type} (m m' : HandleMap T) (v : T) (h : Handle)
    (hr : Reachable m) (hm : m.insert v = some (m', h)) :
    Handle.from_u64 (Handle.into_u64 h) = .ok h := by
  have hv := reachable_valid m hr
  rcases HandleMap.insert_eq m v m' h hm with
    ⟨m1, entry, i, hens, hE, hst, hhid, hhver, hhidx, _⟩
  have hv1 : Valid m1 := valid_ensure m _ m1 hv hens
  have hffl : m1.first_free < m1.entries.length := lt_length_of_getElem? _ _ _ hE
  have hgd : m1.entries.getD m1.first_free default = entry := getD_eq_of_getElem? _ _ _ _ hE
  have hvff := hv1.vers m1.first_free hffl
  rw [hgd] at hvff
  have hodd : entry.version % 2 = 1 := by
    rcases hvff with ⟨_, _, hiff⟩
    rw [hst] at hiff
    simp at hiff
    omega
  have hbump := bump_facts entry.version hodd
  rw [← hhver] at hbump
  apply from_into
  · rw [hhid]
    exact hv1.idLt
  · rw [hhidx]
    calc m1.first_free < m1.entries.length := hffl
      _ ≤ MAX_CAPACITY := hv1.capLe
      _ < 65536 := by rw [MAX_CAPACITY_eq]; norm_num
  · exact hbump.2.2
  · exact hbump.1

/-- C2 witness: the round trip on the concrete handle produced by the
first insert into a fresh arena. -/
theorem c2_decode_encode_witness :
    Handle.from_u64 (Handle.into_u64 h0c) = .ok h0c :=
  c2_decode_encode fresh0 m2c 42 h0c (Reachable.construct 0 4 fresh0 (by decide)) (by decide)

/-! ## Claim C3 -/

/-- C3 counterexample: inserting four values into a fresh capacity-4 arena
grows the capacity to 7 slots. Doubling 4 can only produce the even
capacities 8, 16, ..., but 7 is odd: after growth the capacity is not the
previous capacity times a power of two (it is the doubling target minus
one). -/
theorem c3_counterexample :
    runFrom fresh0 [Op.ins 0, Op.ins 1, Op.ins 2, Op.ins 3] = some c3m4 ∧
    fresh0.entries.length = 4 ∧ c3m4.entries.length = 7 ∧ 7 % 2 = 1 :=
  ⟨c3_run, by decide, by decide, by decide⟩

/-- C3 (amended): a growth request beyond `MAX_CAPACITY = 32767` is a
panic (modelled `none`), never a returned error; a successful
`ensure_capacity` whose request is at least the current capacity doubles
the capacity repeatedly until the doubling target strictly exceeds the
request, caps the target at 32767, and leaves the capacity at one slot
less than that target (never shrinking); and `insert` performs its growth
by calling `ensure_capacity (len + 1)` before popping a free slot. -/
theorem c3_growth :
    (∀ (m : HandleMap Nat) (c : Nat), m.num_entries ≠ m.entries.length →
      MAX_CAPACITY < c → m.ensure_capacity c = none) ∧
    (∀ (m : HandleMap Nat) (c : Nat) (m' : HandleMap Nat), 1 ≤ m.entries.length →
      m.entries.length ≤ c → m.ensure_capacity c = some m' →
      ∃ k, growCap c m.entries.length = m.entries.length * 2 ^ k ∧
        c < m.entries.length * 2 ^ k ∧
        m'.entries.length =
          max m.entries.length (min (m.entries.length * 2 ^ k) MAX_CAPACITY - 1)) ∧
    (∀ (m : HandleMap Nat) (v : Nat) (p : HandleMap Nat × Handle), m.insert v = some p →
      ∃ m1, m.ensure_capacity (m.num_entries + 1) = some m1 ∧
        p.1.entries.length = m1.entries.length) := by
  refine ⟨?_, ?_, ?_⟩
  · intro m c h1 h2
    unfold HandleMap.ensure_capacity
    rw [if_neg (show ¬(m.len = m.capacity) from h1), if_pos (show MAX_CAPACITY < c from h2)]
  · intro m c m' hpos hle hm
    rcases growCap_pow c m.entries.length hpos with ⟨k, hk1, hk2⟩
    refine ⟨k, hk1, hk2, ?_⟩
    unfold HandleMap.ensure_capacity at hm
    split at hm
    · exact absurd hm (by simp)
    split at hm
    · exact absurd hm (by simp)
    split at hm
    · rename_i h3
      have hcc : m.capacity = m.entries.length := rfl
      omega
    · rcases hE : m.entries[m.first_free]? with _ | e <;> rw [hE] at hm
      · simp at hm
      · by_cases hocc : e.state.is_occupied = true
        · simp [hocc] at hm
        · simp only [Bool.not_eq_true] at hocc
          simp [hocc] at hm
          rw [← hm, HandleMap.pushFree_len]
          have hgc : growCap c m.capacity = m.entries.length * 2 ^ k := hk1
          rw [hgc]
          have hcc : m.capacity = m.entries.length := rfl
          rw [hcc]
          omega
  · intro m v p hm
    rcases HandleMap.insert_eq m v p.1 p.2 hm with
      ⟨m1, entry, i, hens, hE, hst, _, _, _, hm'⟩
    refine ⟨m1, hens, ?_⟩
    rw [hm']
    simp

/-- C3 witness: the panic clause at a concrete oversized request, and the
growth-shape clause at the concrete growth of a fresh arena from 4 to 7
slots. -/
theorem c3_growth_witness :
    fresh0.ensure_capacity 32768 = none ∧
    fresh0.ensure_capacity 4 = some c3grown ∧
    (∃ k, growCap 4 fresh0.entries.length = fresh0.entries.length * 2 ^ k ∧
      4 < fresh0.entries.length * 2 ^ k ∧
      c3grown.entries.length =
        max fresh0.entries.length (min (fresh0.entries.length * 2 ^ k) MAX_CAPACITY - 1)) := by
  refine ⟨?_, ensure_fresh0, ?_⟩
  · exact c3_growth.1 fresh0 32768 (by decide) (by decide)
  · exact c3_growth.2.1 fresh0 4 c3grown (by decide) (by decide) ensure_fresh0

/-! ## Claim C4 -/

/-- C4: `check_handle` performs exactly the specification's ordered,
short-circuiting checks (`WrongMap`, then `IndexPastEnd`, then
`StaleVersion`, else success), and `get`, `get_mut` and `delete` validate
through it: each returns a given validation error exactly when
`check_handle` does (with `delete` and `get_mut` leaving the map
untouched in that case). -/
theorem c4_validation_order (m : HandleMap Nat) (h : Handle) :
    m.check_handle h = checkHandleSpec m h ∧
    (∀ e, m.get h = some (.error e) ↔ m.check_handle h = .error e) ∧
    (∀ e, m.get_mut h = some (m, .error e) ↔ m.check_handle h = .error e) ∧
    (∀ e m', m.delete h = some (m', .error e) ↔ m' = m ∧ m.check_handle h = .error e) := by
  refine ⟨?_, ?_, ?_, ?_⟩
  · unfold HandleMap.check_handle checkHandleSpec
    by_cases h1 : h.map_id = m.id
    · rw [if_neg (not_not_intro h1), if_neg (not_not_intro h1)]
      by_cases h2 : m.entries.length ≤ h.index
      · rw [if_pos h2, if_pos (by omega)]
      · rw [if_neg h2, if_neg (not_not_intro (show h.index < m.entries.length by omega))]
    · rw [if_pos h1, if_pos h1]
  · intro e
    constructor
    · intro hg
      rcases HandleMap.get_eq m h _ hg with ⟨e2, hc, he⟩ | ⟨t, _, _, he⟩
      · injection he with he2
        rw [he2]
        exact hc
      · exact absurd he (by simp)
    · exact HandleMap.get_error m h e
  · intro e
    constructor
    · intro hg
      rcases HandleMap.get_mut_eq m h _ hg with ⟨e2, hc, hp⟩ | ⟨t, _, _, hp⟩
      · rw [Prod.mk.injEq] at hp
        injection hp.2 with he2
        rw [he2]
        exact hc
      · rw [Prod.mk.injEq] at hp
        exact absurd hp.2 (by simp)
    · exact HandleMap.get_mut_error m h e
  · intro e m'
    constructor
    · intro hd
      rcases HandleMap.delete_eq m h _ hd with ⟨e2, hc, hp⟩ | ⟨_, _, hp⟩
      · rw [Prod.mk.injEq] at hp
        injection hp.2 with he2
        rw [he2]
        exact ⟨hp.1, hc⟩
      · rw [Prod.mk.injEq] at hp
        exact absurd hp.2 (by simp)
    · intro ⟨hm', hc⟩
      rw [hm']
      exact HandleMap.delete_error m h e hc

/-- C4 witness: the shared ordered validation at a concrete arena and
handle with the wrong map id. -/
theorem c4_validation_order_witness :
    fresh0.check_handle ⟨1, 2, 3⟩ = checkHandleSpec fresh0 ⟨1, 2, 3⟩ ∧
    (fresh0.get ⟨1, 2, 3⟩ = some (.error .WrongMap) ↔
      fresh0.check_handle ⟨1, 2, 3⟩ = .error .WrongMap) :=
  ⟨(c4_validation_order fresh0 ⟨1, 2, 3⟩).1,
   (c4_validation_order fresh0 ⟨1, 2, 3⟩).2.1 .WrongMap⟩

/-! ## Claim C5 -/

/-- C5: in every reachable arena state, a slot's version is even exactly
when the slot is occupied (`Active`), no slot's version is ever zero, and
the delete-side version increment can never produce zero (an occupied
slot's version is even, hence at most 65534); the zero-skip is therefore
respected symmetrically — on the insert side by the explicit `+= 2`, on
the delete side vacuously. -/
theorem c5_version_parity {T : Type} (m : HandleMap T) (hr : Reachable m) :
    ∀ i, i < m.entries.length →
      (((m.entries.getD i default).version % 2 = 0) ↔
        (m.entries.getD i default).state.is_occupied = true) ∧
      (m.entries.getD i default).version ≠ 0 ∧
      ((m.entries.getD i default).state.is_occupied = true →
        ((m.entries.getD i default).version + 1) % 65536 ≠ 0) := by
  intro i hi
  have hv := reachable_valid m hr
  rcases hv.vers i hi with ⟨hlt, hne, hiff⟩
  refine ⟨hiff, hne, ?_⟩
  intro hocc
  have heven := hiff.mpr hocc
  omega

/-- C5 witness: the invariant at slot 0 of a freshly constructed arena. -/
theorem c5_version_parity_witness :
    (((fresh0.entries.getD 0 default).version % 2 = 0) ↔
      (fresh0.entries.getD 0 default).state.is_occupied = true) ∧
    (fresh0.entries.getD 0 default).version ≠ 0 ∧
    ((fresh0.entries.getD 0 default).state.is_occupied = true →
      ((fresh0.entries.getD 0 default).version + 1) % 65536 ≠ 0) :=
  c5_version_parity fresh0 (Reachable.construct 0 4 fresh0 (by decide)) 0 (by decide)

/-! ## Claim C6 -/

/-- C6: in every reachable arena state the free-list traversal from
`first_free` visits exactly the non-`Active` slots, each exactly once (no
cycles, no missed slots), and stops at the unique `EndOfFreeList` slot;
the occupied count equals the number of `Active` slots and is strictly
below the capacity. -/
theorem c6_free_list {T : Type} (m : HandleMap T) (hr : Reachable m) :
    ∃ l, Chain m.entries m.first_free l ∧ l.Nodup ∧
      (∀ i, i < m.entries.length →
        ((m.entries.getD i default).state.is_occupied = false ↔ i ∈ l)) ∧
      (∃ t, l.getLast? = some t ∧ (m.entries.getD t default).state = .EndOfFreeList) ∧
      (∀ i, i < m.entries.length → (m.entries.getD i default).state = .EndOfFreeList →
        l.getLast? = some i) ∧
      m.num_entries = m.entries.countP (fun e => e.state.is_occupied) ∧
      m.num_entries < m.entries.length := by
  have hv := reachable_valid m hr
  rcases hv.freeList with ⟨l, hc, hnd, hcov, hlena⟩
  refine ⟨l, hc, hnd, hcov, chain_getLast hc, ?_, hv.numCount, ?_⟩
  · intro i hi hieol
    exact chain_eol_last hc i ((hcov i hi).mp (by rw [hieol]; simp)) hieol
  · have hne := chain_ne_nil hc
    have hlpos : 0 < l.length := List.length_pos.mpr hne
    omega

/-- C6 witness: the free-list invariant on a freshly constructed arena. -/
theorem c6_free_list_witness :
    ∃ l, Chain fresh0.entries fresh0.first_free l ∧ l.Nodup ∧
      (∀ i, i < fresh0.entries.length →
        ((fresh0.entries.getD i default).state.is_occupied = false ↔ i ∈ l)) ∧
      (∃ t, l.getLast? = some t ∧
        (fresh0.entries.getD t default).state = .EndOfFreeList) ∧
      (∀ i, i < fresh0.entries.length →
        (fresh0.entries.getD i default).state = .EndOfFreeList → l.getLast? = some i) ∧
      fresh0.num_entries = fresh0.entries.countP (fun e => e.state.is_occupied) ∧
      fresh0.num_entries < fresh0.entries.length :=
  c6_free_list fresh0 (Reachable.construct 0 4 fresh0 (by decide))

/-! ## Claim C7 -/

/-- C7: `from_u64` rejects the input 0, every input whose top 16 bits are
not the magic constant, and every input with low bit 1, always with
`InvalidHandle`; on every other input it succeeds, unpacking the instance
id, index and version from their fixed bit positions losslessly (the
decoded fields re-encode to exactly the original word). -/
theorem c7_decode_rejects :
    Handle.from_u64 0 = .error .InvalidHandle ∧
    (∀ v : Nat, v >>> 48 ≠ HANDLE_MAGIC → Handle.from_u64 v = .error .InvalidHandle) ∧
    (∀ v : Nat, v % 2 = 1 → Handle.from_u64 v = .error .InvalidHandle) ∧
    (∀ v : Nat, v >>> 48 = HANDLE_MAGIC → v % 2 = 0 →
      Handle.from_u64 v = .ok ⟨(v >>> 32) % 65536, v % 65536, (v >>> 16) % 65536⟩ ∧
      Handle.into_u64 ⟨(v >>> 32) % 65536, v % 65536, (v >>> 16) % 65536⟩ = v) := by
  refine ⟨by decide, ?_, ?_, ?_⟩
  · intro v hv
    unfold Handle.from_u64
    rw [if_neg (by simp [Handle.is_valid, hv])]
  · intro v hv
    unfold Handle.from_u64
    rw [if_neg (by simp [Handle.is_valid, Nat.and_one_is_mod, hv])]
  · intro v h1 h2
    have hval : Handle.is_valid v = true := by
      simp [Handle.is_valid, h1, Nat.and_one_is_mod, h2]
    constructor
    · unfold Handle.from_u64
      rw [if_pos hval]
    · have hd48 : v / 2 ^ 48 = 16723 := by
        rw [← Nat.shiftRight_eq_div_pow]
        exact h1
      rw [into_u64_eq _ (Nat.mod_lt _ (by norm_num)) (Nat.mod_lt _ (by norm_num))
        (Nat.mod_lt _ (by norm_num))]
      show ((16723 * 65536 + (v >>> 32) % 65536) * 65536 + (v >>> 16) % 65536) * 65536 +
        v % 65536 = v
      rw [Nat.shiftRight_eq_div_pow, Nat.shiftRight_eq_div_pow]
      have e48 : (2:Nat) ^ 48 = 281474976710656 := by norm_num
      have e32 : (2:Nat) ^ 32 = 4294967296 := by norm_num
      have e16 : (2:Nat) ^ 16 = 65536 := by norm_num
      rw [e48] at hd48
      rw [e32, e16]
      omega

/-- C7 witness: the rejection clauses at concrete inputs (wrong magic and
odd low bit) and the acceptance clause at a concrete valid word. -/
theorem c7_decode_rejects_witness :
    Handle.from_u64 5 = .error .InvalidHandle ∧
    Handle.from_u64 7 = .error .InvalidHandle ∧
    Handle.from_u64 (16723 * 281474976710656 + 2) =
      .ok ⟨((16723 * 281474976710656 + 2) >>> 32) % 65536,
           (16723 * 281474976710656 + 2) % 65536,
           ((16723 * 281474976710656 + 2) >>> 16) % 65536⟩ ∧
    Handle.into_u64 ⟨((16723 * 281474976710656 + 2) >>> 32) % 65536,
           (16723 * 281474976710656 + 2) % 65536,
           ((16723 * 281474976710656 + 2) >>> 16) % 65536⟩ =
      16723 * 281474976710656 + 2 := by
  have h4 := c7_decode_rejects.2.2.2 (16723 * 281474976710656 + 2) (by decide) (by decide)
  exact ⟨c7_decode_rejects.2.1 5 (by decide), c7_decode_rejects.2.2.1 7 (by decide),
    h4.1, h4.2⟩

/-! ## Claim C8 -/

/-- C8: for every handle (any `u16` field values), the encoded word has
its most significant bit clear: it is strictly below `2 ^ 63`, hence
non-negative as a signed 64-bit integer. -/
theorem c8_encode_msb (h : Handle) (h1 : h.map_id < 65536) (h2 : h.index < 65536)
    (h3 : h.version < 65536) : Handle.into_u64 h < 2 ^ 63 := by
  rw [into_u64_eq h h1 h2 h3]
  have e63 : (2:Nat) ^ 63 = 9223372036854775808 := by norm_num
  rw [e63]
  omega

/-- C8 witness: the bound at the all-maximal handle. -/
theorem c8_encode_msb_witness : Handle.into_u64 ⟨65535, 65534, 65533⟩ < 2 ^ 63 :=
  c8_encode_msb ⟨65535, 65534, 65533⟩ (by decide) (by decide) (by decide)

/-! ## Claim C10 -/

/-- C10: a `delete` that returns a validation error returns the arena
exactly as it was (all slots, versions, free links, `first_free` and the
occupied count unchanged), and `get_mut` — like `get`, whose shared
receiver cannot mutate at all — returns the arena unchanged whether it
succeeds or fails. -/
theorem c10_error_unchanged :
    (∀ (m m' : HandleMap Nat) (h : Handle) (e : HandleError),
      m.delete h = some (m', .error e) → m' = m) ∧
    (∀ (m m' : HandleMap Nat) (h : Handle) (r : Except HandleError Nat),
      m.get_mut h = some (m', r) → m' = m) := by
  constructor
  · intro m m' h e hm
    rcases HandleMap.delete_eq m h (m', .error e) hm with ⟨e2, _, hp⟩ | ⟨_, _, hp⟩
    · rw [Prod.mk.injEq] at hp
      exact hp.1
    · rw [Prod.mk.injEq] at hp
      exact absurd hp.2 (by simp)
  · intro m m' h r hm
    rcases HandleMap.get_mut_eq m h (m', r) hm with ⟨e2, _, hp⟩ | ⟨t, _, _, hp⟩
    · rw [Prod.mk.injEq] at hp
      exact hp.1
    · rw [Prod.mk.injEq] at hp
      exact hp.1

/-- C10 witness: a failed delete (wrong map id) on a fresh arena returns
it unchanged. -/
theorem c10_error_unchanged_witness :
    fresh0.delete ⟨1, 2, 3⟩ = some (fresh0, .error .WrongMap) ∧ fresh0 = fresh0 :=
  ⟨by decide, c10_error_unchanged.1 fresh0 fresh0 ⟨1, 2, 3⟩ .WrongMap (by decide)⟩
